import Mathlib

/-!
Verification development for the `blacksmith` worker-pool task dispatcher
(src/blacksmith.go, src/logger.go).

The Go program is embedded shallowly as a labelled transition system.  The
pure parts of the code (handler resolution `executeTask`, the constructor
`New`, the setters `SetHandlerFn`/`SetHandler`, and `Stop`) are translated
directly as Lean functions.  The concurrent parts (the dispatch loop, the
per-task matching goroutines, the worker goroutines and the teardown
goroutine) are modelled as a step function `stepAct : Act → Sys → Option Sys`
on an explicit global state `Sys`; an execution of the Go program is a
sequence of such steps, and the nondeterministic interleaving of goroutines
is the nondeterministic choice of actions.

Modelling decisions, recorded once here:
* Channels.  `taskQueue` (capacity 0) is a rendezvous: a pending
  `QueueTask` call (an element of `toSubmit`) completes only in the same
  atomic step in which the dispatch loop's `select` receives it
  (`Act.acceptTask`).  `workerPool` (capacity `maxWorkers`) is the FIFO
  list `Sys.workerPool` of worker indices: each worker sends exactly its
  own inbox, so an inbox is identified with its worker's index.  A send on
  it requires `length < maxWorkers`, a receive pops the head (Go buffered
  channels are FIFO in their values); which blocked receiver obtains the
  popped value is a nondeterministic choice (`Act.claimWorker j` picks the
  j-th matching goroutine).
* Goroutines.  A per-task matching goroutine (lines 106-111) is either
  still waiting to claim an inbox (an element of `pendingMatch`) or has
  claimed inbox `w` and not yet delivered (an element of `claimed`).  The
  teardown goroutine (lines 113-120) is the counter `teardown`: `some k`
  means it has stopped workers `0..k-1`.  A worker goroutine's program
  counter is its `WPhase`.
* The stop-handshake primitive `utils.StopChannel` comes from the external
  go-utils dependency, not from this repository; it is modelled from the
  spec's description (two-phase: `RequestStop` sets a request flag, the
  owner's loop observes the request once and then acknowledges).
* The logging facility is out of the specified core; log lines are not
  modelled.  The identity data (`LogProvider`) carried by every component
  is modelled, with the external short-id generator abstracted as a
  natural-number counter `nextId` threaded through the state.
* `Run` is modelled as a single step that creates all workers and starts
  the dispatch loop (the spec makes calling `Run` twice a caller error, so
  the step is guarded to happen once); executions considered are those of
  a client that calls `New`, configures handlers, plans a list of
  `QueueTask` calls (`toSubmit`), calls `Run`, and possibly `Stop`.
* Handler invocations are recorded in the ghost trace `events`: delivering
  a task to a worker appends the outcome of `executeTask` on the stamped
  task; the worker is then `executing` until the handler returns
  (`Act.finishTask`).  Handlers themselves are opaque values of type `H`
  (`Option H` models Go's nilable `TaskHandler`).
-/

namespace Blacksmith

/-- Identity attached to every component for logging (src/logger.go,
`LogProvider`): a name, a unique short id (abstracted as a `Nat`), and an
optional parent prefix. The Go zero value has empty strings; `0` plays the
part of the zero id. -/
structure LogProvider where
  name : String
  id : Nat
  pfx : String
  deriving DecidableEq

def LogProvider.zero : LogProvider := ⟨"", 0, ""⟩

/-- Go `LogProvider._identifier` (src/logger.go line 56-58). -/
def LogProvider.identifierCore (lp : LogProvider) : String :=
  lp.name ++ "-" ++ toString lp.id

/-- Go `LogProvider.Identifier` (src/logger.go lines 46-54). -/
def LogProvider.identifier (lp : LogProvider) : String :=
  if lp.pfx = "" then lp.identifierCore else lp.pfx ++ ">" ++ lp.identifierCore

/-- Modelled from the spec: the two-phase stop handshake primitive
(`utils.StopChannel` from the external go-utils dependency, described in
spec section 4.3): `RequestStop` records the request; the owning loop
observes the request once via its wait, then acknowledges completion. -/
structure StopChannel where
  requested : Bool
  observed : Bool
  acked : Bool
  deriving DecidableEq

/-- Go `utils.NewStopChannel()`: fresh handshake, nothing signalled. -/
def StopChannel.new : StopChannel := ⟨false, false, false⟩

/-- Go `Task` (src/blacksmith.go lines 11-17): embedded `LogProvider`, an
opaque payload and a task-kind identifier (`TaskName` is a Go `int`). -/
structure Task (P : Type) where
  lp : LogProvider
  payload : P
  taskName : Int
  deriving DecidableEq

/-- The immutable part of a task: the pair (kind, payload) as submitted. -/
def taskCore {P : Type} (t : Task P) : Int × P := (t.taskName, t.payload)

/-- Go `QueueTask` builds `Task{TaskName: taskName, Payload: payload}`
(line 99): the embedded `LogProvider` is the zero value. -/
def mkTask {P : Type} (k : Int) (p : P) : Task P :=
  { lp := LogProvider.zero, payload := p, taskName := k }

/-- Program counter of a worker goroutine (`Worker.start`, lines 140-158).
`created`: no goroutine yet (zero-value worker before `Run`).
`toRegister`: at the top of the loop, about to send its inbox to the pool.
`selectWait`: inbox sent, blocked in the `select` (lines 146-155).
`executing t`: received task `t`, running the task handler (line 150).
`stopped`: took the stop branch and returned (lines 151-154), terminal. -/
inductive WPhase (P : Type) where
  | created
  | toRegister
  | selectWait
  | executing (t : Task P)
  | stopped
  deriving DecidableEq

/-- Whether a worker phase is mid-execution of some task. -/
def isExecuting {P : Type} : WPhase P → Bool
  | WPhase.executing _ => true
  | _ => false

/-- Go `Worker` (lines 23-29).  Its `workerPool` and `taskChannel` fields
are represented by the worker's index in `Sys.workers` (each worker sends
exactly its own inbox into the shared pool); the dispatcher-supplied
execution callback is `Sys.handlerFn`/`Sys.handlerMap` via `executeTask`. -/
structure Worker (P : Type) where
  lp : LogProvider
  stopChannel : StopChannel
  phase : WPhase P
  deriving DecidableEq

/-- The Go zero-value worker, as created by `make([]Worker, maxWorkers)`
in `New` (line 50): no goroutine, zero identity, zero stop channel. -/
def workerZero {P : Type} : Worker P :=
  { lp := LogProvider.zero, stopChannel := StopChannel.new, phase := WPhase.created }

/-- Outcome of one call of `Blacksmith.executeTask` on a claimed task:
either some handler value was invoked on the task, or no handler was found
and the task was dropped after being logged (lines 125-138). -/
inductive ExecOutcome (P H : Type) where
  | invoked (h : H) (t : Task P)
  | droppedLog (t : Task P)
  deriving DecidableEq

/-- The task an outcome was produced from. -/
def ExecOutcome.task {P H : Type} : ExecOutcome P H → Task P
  | .invoked _ t => t
  | .droppedLog t => t

/-- The (kind, payload) core of the task of an outcome. -/
def evCore {P H : Type} (e : ExecOutcome P H) : Int × P := taskCore e.task

/-- Go map indexing `b.handlerMap[task.TaskName]` (line 131) over the
association-list representation of the map: a missing key yields the zero
value `nil` (`none`); a stored handler may itself be `nil`. -/
def mapLookup {H : Type} (m : List (Int × Option H)) (k : Int) : Option H :=
  match m with
  | [] => none
  | (k', h) :: rest => if k' = k then h else mapLookup rest k

/-- Handler resolution as performed by `executeTask` (lines 125-138): the
catch-all handler if it is non-nil, otherwise the per-kind map entry. -/
def resolveHandler {H : Type} (hf : Option H) (m : List (Int × Option H)) (k : Int) : Option H :=
  match hf with
  | some f => some f
  | none => mapLookup m k

/-- Go `Blacksmith.executeTask` (lines 125-138): if the catch-all
`handlerFn` is non-nil invoke it and return; otherwise look the task's
kind up in `handlerMap`; invoke the entry if non-nil, else log and drop. -/
def executeTask {P H : Type} (hf : Option H) (m : List (Int × Option H)) (t : Task P) :
    ExecOutcome P H :=
  match hf with
  | some f => .invoked f t
  | none =>
    match mapLookup m t.taskName with
    | some g => .invoked g t
    | none => .droppedLog t

/-- Global state of the system: the `Blacksmith` struct (lines 32-41)
together with the states of all goroutines and a ghost trace of handler
invocations.  Field correspondence:
`maxWorkers`, `handlerMap`, `handlerFn`, `workers`, `stopChannel`, `lp` —
the struct fields; `workerPool` — the contents of the buffered
channel-of-channels, as worker indices; `toSubmit` — the pending (future)
`QueueTask` calls of the client, in submission order (the capacity-0
`taskQueue` itself never holds a task); `dispatcherRunning` — whether
`Run` has started the dispatch loop; `pendingMatch`/`claimed` — the
per-task matching goroutines spawned at line 106, before/after claiming an
inbox; `teardown` — the teardown goroutine spawned at line 113; `nextId` —
the short-id generator; `events` — ghost trace of `executeTask` outcomes. -/
structure Sys (P H : Type) where
  maxWorkers : Nat
  handlerFn : Option H
  handlerMap : List (Int × Option H)
  lp : LogProvider
  dispatcherRunning : Bool
  stopChannel : StopChannel
  workers : List (Worker P)
  workerPool : List Nat
  toSubmit : List (Int × P)
  pendingMatch : List (Task P)
  claimed : List (Nat × Task P)
  teardown : Option Nat
  nextId : Nat
  events : List (ExecOutcome P H)
  deriving DecidableEq

variable {P H : Type}

/-- Go `New` (lines 44-55): a fresh controller with `maxWorkers` zero-value
(unstarted) workers, an empty handler map, no catch-all handler, an empty
capacity-0 task queue, an empty idle pool of capacity `maxWorkers`, and a
fresh stop channel; `InitLog("Blacksmith")` assigns the identity. -/
def New (n : Nat) : Sys P H :=
  { maxWorkers := n
    handlerFn := none
    handlerMap := []
    lp := { name := "Blacksmith", id := 1, pfx := "" }
    dispatcherRunning := false
    stopChannel := StopChannel.new
    workers := List.replicate n workerZero
    workerPool := []
    toSubmit := []
    pendingMatch := []
    claimed := []
    teardown := none
    nextId := 2
    events := [] }

/-- Go `Blacksmith.SetHandlerFn` (lines 57-61): store the (possibly nil)
catch-all handler. -/
def SetHandlerFn (s : Sys P H) (h : Option H) : Sys P H :=
  { s with handlerFn := h }

/-- Go `Blacksmith.SetHandler` (lines 63-67): map the kind to the handler
(overwriting: the new binding shadows any older one under `mapLookup`). -/
def SetHandler (s : Sys P H) (k : Int) (h : Option H) : Sys P H :=
  { s with handlerMap := (k, h) :: s.handlerMap }

/-- Go `Blacksmith.Stop` (lines 90-95): log, call `RequestStop` on the
blacksmith's stop channel, log, return.  Nothing else is touched. -/
def Stop (s : Sys P H) : Sys P H :=
  { s with stopChannel := { s.stopChannel with requested := true } }

/-- The client plans a sequence of `QueueTask` calls, to be submitted in
order; each pending call blocks until the dispatch loop accepts it. -/
def queueTasks (s : Sys P H) (ts : List (Int × P)) : Sys P H :=
  { s with toSubmit := s.toSubmit ++ ts }

/-- Scenario initial state: `New n` configured with a catch-all handler,
a handler map, and a planned submission sequence. -/
def initSys (n : Nat) (hf : Option H) (hm : List (Int × Option H))
    (tasks : List (Int × P)) : Sys P H :=
  { New n with handlerFn := hf, handlerMap := hm, toSubmit := tasks }

/-- Stamping performed by the worker on a received task just before
invoking the handler: `task.InitLog("Task").SetPrefix(worker.Identifier())`
(line 148) overwrites exactly the embedded logging-identity fields. -/
def stamp (s : Sys P H) (ws : Worker P) (t : Task P) : Task P :=
  { t with lp := { name := "Task", id := s.nextId, pfx := ws.lp.identifier } }

/-- Actions: one per atomic step of some goroutine.
`run` — `Blacksmith.Run` (lines 70-87): create and start all workers and
  the dispatch loop.
`acceptTask` — the dispatch loop receives the next queued task
  (rendezvous with a blocked `QueueTask` caller) and spawns its matching
  goroutine (lines 105-111).
`claimWorker j` — the j-th waiting matching goroutine receives an inbox
  from the pool (line 107).
`deliverTask j` — the j-th claiming matching goroutine sends its task to
  the claimed worker's inbox, the worker receives it in its `select`,
  stamps it and calls the handler (lines 110, 147-150).
`finishTask w` — worker `w`'s handler invocation returns; the worker loops
  back to re-register.
`registerIdle w` — worker `w` sends its inbox into the pool and blocks in
  its `select` (lines 144-146).
`callStop` — the client calls `Blacksmith.Stop` (lines 90-95).
`observeStop` — the dispatch loop's `select` observes the stop request and
  spawns the teardown goroutine (lines 112-121).
`teardownStep` — the teardown goroutine stops the next worker, or, after
  the last one, acknowledges the blacksmith's handshake (lines 114-119).
`workerObserveStop w` — worker `w`'s `select` observes its stop request,
  acknowledges and terminates (lines 151-154). -/
inductive Act where
  | run
  | acceptTask
  | claimWorker (j : Nat)
  | deliverTask (j : Nat)
  | finishTask (w : Nat)
  | registerIdle (w : Nat)
  | callStop
  | observeStop
  | teardownStep
  | workerObserveStop (w : Nat)
  deriving DecidableEq

/-- Effect of `Run` (lines 70-87): each of the `maxWorkers` slice slots is
overwritten with a started worker whose identity is
`InitLog("worker").SetPrefix(b.Identifier())` with a fresh id, and the
dispatch loop is started. -/
def runUpd (s : Sys P H) : Sys P H :=
  { s with
    dispatcherRunning := true
    workers := (List.range s.maxWorkers).map (fun i =>
      { lp := { name := "worker", id := s.nextId + i, pfx := s.lp.identifier }
        stopChannel := StopChannel.new
        phase := WPhase.toRegister })
    nextId := s.nextId + s.maxWorkers }

/-- Effect of the dispatch loop accepting the next submission `(k, p)`:
the `QueueTask` call returns and the new matching goroutine holds the task
`Task{TaskName: k, Payload: p}`. -/
def acceptUpd (s : Sys P H) (k : Int) (p : P) (rest : List (Int × P)) : Sys P H :=
  { s with toSubmit := rest, pendingMatch := s.pendingMatch ++ [mkTask k p] }

/-- Effect of a matching goroutine claiming the head inbox `w` of the
pool. -/
def claimUpd (s : Sys P H) (w : Nat) (poolRest : List Nat) (j : Nat) (t : Task P) : Sys P H :=
  { s with workerPool := poolRest
           pendingMatch := s.pendingMatch.eraseIdx j
           claimed := s.claimed ++ [(w, t)] }

/-- Effect of delivering task `t` to worker `w`: the worker stamps the task
and invokes `executeTask` on it; the outcome is recorded in the trace and
the worker is busy until the handler returns. -/
def deliverUpd (s : Sys P H) (j : Nat) (w : Nat) (ws : Worker P) (t : Task P) : Sys P H :=
  { s with claimed := s.claimed.eraseIdx j
           workers := s.workers.set w { ws with phase := WPhase.executing (stamp s ws t) }
           events := s.events ++ [executeTask s.handlerFn s.handlerMap (stamp s ws t)]
           nextId := s.nextId + 1 }

/-- Effect of worker `w`'s handler returning: loop back to re-register. -/
def finishUpd (s : Sys P H) (w : Nat) (ws : Worker P) : Sys P H :=
  { s with workers := s.workers.set w { ws with phase := WPhase.toRegister } }

/-- Effect of worker `w` re-registering its inbox into the pool. -/
def registerUpd (s : Sys P H) (w : Nat) (ws : Worker P) : Sys P H :=
  { s with workerPool := s.workerPool ++ [w]
           workers := s.workers.set w { ws with phase := WPhase.selectWait } }

/-- Effect of the client's `Stop` call: exactly `Stop`. -/
def callStopUpd (s : Sys P H) : Sys P H := Stop s

/-- Effect of the dispatch loop observing the stop request: spawn the
teardown goroutine, which will stop workers `0, 1, ...` in order. -/
def observeUpd (s : Sys P H) : Sys P H :=
  { s with stopChannel := { s.stopChannel with observed := true }, teardown := some 0 }

/-- Effect of the teardown goroutine calling `worker.stop()` on worker `k`
(lines 115-117, 160-162): request that worker's handshake. -/
def teardownWorkerUpd (s : Sys P H) (k : Nat) (ws : Worker P) : Sys P H :=
  { s with workers := s.workers.set k
             { ws with stopChannel := { ws.stopChannel with requested := true } }
           teardown := some (k + 1) }

/-- Effect of the teardown goroutine acknowledging the blacksmith's
handshake after stopping every worker (line 119). -/
def teardownAckUpd (s : Sys P H) : Sys P H :=
  { s with stopChannel := { s.stopChannel with acked := true }, teardown := none }

/-- Effect of worker `w` observing its stop request: acknowledge and
terminate (lines 151-154). -/
def workerStopUpd (s : Sys P H) (w : Nat) (ws : Worker P) : Sys P H :=
  { s with workers := s.workers.set w
             { ws with phase := WPhase.stopped
                       stopChannel := { ws.stopChannel with observed := true, acked := true } } }

/-- One atomic step of the system: `some s'` if action `a` is enabled in
`s` with successor `s'`, `none` if it is blocked. -/
def stepAct (a : Act) (s : Sys P H) : Option (Sys P H) :=
  match a with
  | .run => if s.dispatcherRunning then none else some (runUpd s)
  | .acceptTask =>
    if s.dispatcherRunning then
      match s.toSubmit with
      | [] => none
      | (k, p) :: rest => some (acceptUpd s k p rest)
    else none
  | .claimWorker j =>
    match s.workerPool, s.pendingMatch[j]? with
    | w :: poolRest, some t => some (claimUpd s w poolRest j t)
    | _, _ => none
  | .deliverTask j =>
    match s.claimed[j]? with
    | some (w, t) =>
      match s.workers[w]? with
      | some ws =>
        match ws.phase with
        | .selectWait => some (deliverUpd s j w ws t)
        | _ => none
      | none => none
    | none => none
  | .finishTask w =>
    match s.workers[w]? with
    | some ws =>
      match ws.phase with
      | .executing _ => some (finishUpd s w ws)
      | _ => none
    | none => none
  | .registerIdle w =>
    match s.workers[w]? with
    | some ws =>
      match ws.phase with
      | .toRegister =>
        if s.workerPool.length < s.maxWorkers then some (registerUpd s w ws) else none
      | _ => none
    | none => none
  | .callStop => if s.stopChannel.requested then none else some (callStopUpd s)
  | .observeStop =>
    if s.dispatcherRunning && s.stopChannel.requested && !s.stopChannel.observed then
      some (observeUpd s)
    else none
  | .teardownStep =>
    match s.teardown with
    | some k =>
      if k < s.maxWorkers then
        match s.workers[k]? with
        | some ws => some (teardownWorkerUpd s k ws)
        | none => none
      else some (teardownAckUpd s)
    | none => none
  | .workerObserveStop w =>
    match s.workers[w]? with
    | some ws =>
      match ws.phase with
      | .selectWait =>
        if ws.stopChannel.requested then some (workerStopUpd s w ws) else none
      | _ => none
    | none => none

/-- One step by some action. -/
def StepR (s s' : Sys P H) : Prop := ∃ a, stepAct a s = some s'

/-- Reachability: finitely many interleaved steps. -/
def Reach (s s' : Sys P H) : Prop := Relation.ReflTransGen StepR s s'

/-- Execute a listed sequence of actions, failing if any is blocked. -/
def runActs (s : Sys P H) : List Act → Option (Sys P H)
  | [] => some s
  | a :: rest =>
    match stepAct a s with
    | some s' => runActs s' rest
    | none => none

/-- The idle registry together with the inboxes currently held by claiming
matching goroutines: every inbox that has been sent to the pool and whose
owning worker has not yet been handed a task. -/
def poolClaim (s : Sys P H) : List Nat := s.workerPool ++ s.claimed.map Prod.fst

/-- Structural invariant on workers and the idle registry: the worker
slice has its fixed size; before `Run` everything is pristine; after `Run`
no worker is unstarted; registry entries are inboxes of existing workers;
each worker's inbox occurs at most once in registry-plus-claims, exactly
once while its worker waits in its `select`, and only ever for a waiting
or stopped worker. -/
def InvW (s : Sys P H) : Prop :=
  s.workers.length = s.maxWorkers ∧
  (s.dispatcherRunning = false →
     s.workers = List.replicate s.maxWorkers workerZero ∧
     s.workerPool = [] ∧ s.pendingMatch = [] ∧ s.claimed = [] ∧ s.events = [] ∧
     s.teardown = none ∧ s.stopChannel.observed = false) ∧
  (s.dispatcherRunning = true → ∀ ws ∈ s.workers, ws.phase ≠ WPhase.created) ∧
  (∀ w ∈ poolClaim s, w < s.maxWorkers) ∧
  (∀ w, (poolClaim s).count w ≤ 1) ∧
  (∀ w ws, s.workers[w]? = some ws →
     (ws.phase = WPhase.selectWait → (poolClaim s).count w = 1) ∧
     ((poolClaim s).count w = 1 → ws.phase = WPhase.selectWait ∨ ws.phase = WPhase.stopped))

/-- Stop-handshake invariant: observation implies a request; a live
teardown goroutine implies the dispatch loop observed the stop and its
progress counter is in range; any stop signal at a worker traces back to
the observed pool-level stop; a stopped worker has observed and
acknowledged its own handshake. -/
def InvStop (s : Sys P H) : Prop :=
  (s.stopChannel.observed = true → s.stopChannel.requested = true) ∧
  (∀ k, s.teardown = some k → s.stopChannel.observed = true ∧ k ≤ s.maxWorkers) ∧
  (∀ ws ∈ s.workers,
     (ws.stopChannel.requested = true ∨ ws.phase = WPhase.stopped) →
       s.stopChannel.observed = true) ∧
  (∀ ws ∈ s.workers, ws.phase = WPhase.stopped →
     ws.stopChannel.requested = true ∧ ws.stopChannel.acked = true)

/-- The (kind, payload) cores of every accepted task that has not yet been
executed or dropped, plus the cores already traced: matching goroutines
still waiting, matching goroutines that claimed an inbox, and outcomes. -/
def accountedCores (s : Sys P H) : List (Int × P) :=
  s.pendingMatch.map taskCore ++ s.claimed.map (fun wt => taskCore wt.2) ++ s.events.map evCore

/-- Task-accounting invariant, relative to the planned submissions
`tasks`: the accepted prefix of the submission sequence is, up to
permutation, exactly the accounted multiset — no task is duplicated and
none vanishes except by leaving a trace event. -/
def InvAccount (tasks : List (Int × P)) (s : Sys P H) : Prop :=
  ∃ pre, tasks = pre ++ s.toSubmit ∧ pre.Perm (accountedCores s)

/-- Frame invariant on task identity: a task in transit still carries the
zero logging identity it was built with by `QueueTask`, and every traced
outcome is the verbatim `executeTask` result on its (worker-stamped)
task. -/
def InvLp (s : Sys P H) : Prop :=
  (∀ t ∈ s.pendingMatch, t.lp = LogProvider.zero) ∧
  (∀ wt ∈ s.claimed, wt.2.lp = LogProvider.zero) ∧
  (∀ e ∈ s.events, e = executeTask s.handlerFn s.handlerMap e.task ∧ e.task.lp.name = "Task")

/-- All invariants in one bundle. -/
def InvAll (tasks : List (Int × P)) (s : Sys P H) : Prop :=
  InvW s ∧ InvStop s ∧ InvAccount tasks s ∧ InvLp s

/-- A state with no outstanding work: nothing left to submit, no matching
goroutine in flight, no worker mid-execution. -/
def Quiescent (s : Sys P H) : Prop :=
  s.toSubmit = [] ∧ s.pendingMatch = [] ∧ s.claimed = [] ∧
  ∀ ws ∈ s.workers, isExecuting ws.phase = false

/-- At most one task is strictly between queue acceptance and its trace
event: the serialized-dispatch regime under which the per-task matching
goroutines cannot race each other. -/
def SerialOK (s : Sys P H) : Prop :=
  s.pendingMatch.length + s.claimed.length ≤ 1

/-- A step whose target state is still in the serialized regime. -/
def StepSerial (s s' : Sys P H) : Prop := StepR s s' ∧ SerialOK s'

/-- Reachability through serialized-dispatch interleavings only. -/
def ReachSerial (s s' : Sys P H) : Prop := Relation.ReflTransGen StepSerial s s'

/-- Execute a listed sequence of actions, also checking that every state
entered is in the serialized regime. -/
def runActsChk (s : Sys P H) : List Act → Option (Sys P H)
  | [] => some s
  | a :: rest =>
    match stepAct a s with
    | some s' =>
      if s'.pendingMatch.length + s'.claimed.length ≤ 1 then runActsChk s' rest else none
    | none => none

/-- In-order FIFO accounting, relative to the planned submissions: the
accepted prefix is exactly the traced cores followed by the in-flight
cores, as ordered lists. -/
def InvFifo (tasks : List (Int × P)) (s : Sys P H) : Prop :=
  ∃ pre, tasks = pre ++ s.toSubmit ∧
    pre = s.events.map evCore ++ s.pendingMatch.map taskCore ++
      s.claimed.map (fun wt => taskCore wt.2)

/-! Concrete scenarios used by counterexamples and witnesses.  All use
`P := Nat`, `H := Unit`. -/

/-- One worker, a handler registered for kind 0, one planned task. -/
def exInit1 : Sys Nat Unit := initSys 1 none [(0, some ())] [(0, 5)]

/-- Start, register, accept the task, let its matching goroutine claim the
worker's inbox — the task is accepted and about to be delivered. -/
def exMid1 : Sys Nat Unit :=
  (runActs exInit1 [.run, .registerIdle 0, .acceptTask, .claimWorker 0]).getD exInit1

/-- From `exMid1`: the client calls `Stop`, the dispatch loop observes it,
teardown stops the worker, and the worker — whose inbox is already claimed
by the matching goroutine — wins the `select` race with its stop branch and
terminates.  The claimed task can now never be delivered. -/
def exLost1 : Sys Nat Unit :=
  (runActs exMid1
    [.callStop, .observeStop, .teardownStep, .workerObserveStop 0, .teardownStep]).getD exInit1

/-- From `exMid1`: instead deliver the task — the worker stamps it and the
handler is invoked. -/
def exExec1 : Sys Nat Unit := (stepAct (Act.deliverTask 0) exMid1).getD exInit1

/-- From `exExec1`: the handler returns; the pool is quiescent. -/
def exDone1 : Sys Nat Unit := (stepAct (Act.finishTask 0) exExec1).getD exInit1

/-- Just after `Run` on `exInit1`: the dispatch loop is live, the planned
task not yet accepted. -/
def exRun1 : Sys Nat Unit := (stepAct Act.run exInit1).getD exInit1

/-- One worker, handlers for kinds 0 and 1, two planned tasks submitted in
the order kind 0 then kind 1. -/
def exInit6 : Sys Nat Unit := initSys 1 none [(0, some ()), (1, some ())] [(0, 10), (1, 20)]

/-- Interleaving in which both matching goroutines are spawned before
either claims, and the second one claims the single idle inbox first: the
handlers run in the order task 2, task 1. -/
def exSwap6 : Sys Nat Unit :=
  (runActs exInit6
    [.run, .registerIdle 0, .acceptTask, .acceptTask, .claimWorker 1, .deliverTask 0,
     .finishTask 0, .registerIdle 0, .claimWorker 0, .deliverTask 0]).getD exInit6

/-- Serialized interleaving of the same scenario: each task is delivered
before the next is accepted; the handlers run in submission order. -/
def exSer6 : Sys Nat Unit :=
  (runActsChk exInit6
    [.run, .registerIdle 0, .acceptTask, .claimWorker 0, .deliverTask 0,
     .finishTask 0, .registerIdle 0, .acceptTask, .claimWorker 0, .deliverTask 0]).getD exInit6

/-- One worker, nothing to submit. -/
def exInit7 : Sys Nat Unit := initSys 1 none [] []

/-- Start, register, then stop: the worker terminates while its inbox is
still registered in the idle pool. -/
def exBad7 : Sys Nat Unit :=
  (runActs exInit7
    [.run, .registerIdle 0, .callStop, .observeStop, .teardownStep,
     .workerObserveStop 0, .teardownStep]).getD exInit7

/-- Start and register only: the single worker waits idle, registered. -/
def exIdle7 : Sys Nat Unit := (runActs exInit7 [.run, .registerIdle 0]).getD exInit7

/-- The task of the `exInit1` scenario as it reaches its handler: stamped
by the worker just before invocation. -/
def exTask1 : Task Nat :=
  { lp := { name := "Task", id := 3, pfx := "Blacksmith-1>worker-2" }
    payload := 5
    taskName := 0 }

/-- The single worker of `exExec1`, mid-execution of `exTask1`. -/
def exWorker1 : Worker Nat :=
  { lp := { name := "worker", id := 2, pfx := "Blacksmith-1" }
    stopChannel := StopChannel.new
    phase := WPhase.executing exTask1 }

/-- The single worker of `exBad7`: stopped with a fully acknowledged
handshake, its inbox still registered in the idle pool. -/
def exWorkerBad7 : Worker Nat :=
  { lp := { name := "worker", id := 2, pfx := "Blacksmith-1" }
    stopChannel := { requested := true, observed := true, acked := true }
    phase := WPhase.stopped }

/-- The single worker of `exIdle7`: idle, registered, waiting in its
`select`. -/
def exWorkerIdle7 : Worker Nat :=
  { lp := { name := "worker", id := 2, pfx := "Blacksmith-1" }
    stopChannel := StopChannel.new
    phase := WPhase.selectWait }

/-! Generic lemmas about steps, runs and reachability. -/

theorem reach_trans {s₁ s₂ s₃ : Sys P H} (h₁ : Reach s₁ s₂) (h₂ : Reach s₂ s₃) :
    Reach s₁ s₃ :=
  Relation.ReflTransGen.trans h₁ h₂

theorem reach_of_runActs :
    ∀ (acts : List Act) (s s' : Sys P H), runActs s acts = some s' → Reach s s'
  | [], s, s', h => by
    simp only [runActs, Option.some.injEq] at h
    exact h ▸ Relation.ReflTransGen.refl
  | a :: rest, s, s', h => by
    simp only [runActs] at h
    cases hs : stepAct a s with
    | none => rw [hs] at h; exact absurd h (by simp)
    | some s₁ =>
      rw [hs] at h
      exact Relation.ReflTransGen.head ⟨a, hs⟩ (reach_of_runActs rest s₁ s' h)

theorem reachSerial_of_runActsChk :
    ∀ (acts : List Act) (s s' : Sys P H), runActsChk s acts = some s' → ReachSerial s s'
  | [], s, s', h => by
    simp only [runActsChk, Option.some.injEq] at h
    exact h ▸ Relation.ReflTransGen.refl
  | a :: rest, s, s', h => by
    simp only [runActsChk] at h
    cases hs : stepAct a s with
    | none => rw [hs] at h; exact absurd h (by simp)
    | some s₁ =>
      rw [hs] at h
      by_cases hser : s₁.pendingMatch.length + s₁.claimed.length ≤ 1
      · rw [show (match some s₁ with
            | some s₂ =>
              if s₂.pendingMatch.length + s₂.claimed.length ≤ 1 then runActsChk s₂ rest else none
            | none => none) = if s₁.pendingMatch.length + s₁.claimed.length ≤ 1 then
              runActsChk s₁ rest else none from rfl, if_pos hser] at h
        exact Relation.ReflTransGen.head ⟨⟨a, hs⟩, hser⟩
          (reachSerial_of_runActsChk rest s₁ s' h)
      · rw [show (match some s₁ with
            | some s₂ =>
              if s₂.pendingMatch.length + s₂.claimed.length ≤ 1 then runActsChk s₂ rest else none
            | none => none) = if s₁.pendingMatch.length + s₁.claimed.length ≤ 1 then
              runActsChk s₁ rest else none from rfl, if_neg hser] at h
        exact absurd h (by simp)

theorem reach_of_reachSerial {s s' : Sys P H} (h : ReachSerial s s') : Reach s s' := by
  induction h with
  | refl => exact Relation.ReflTransGen.refl
  | tail _ hbc ih => exact Relation.ReflTransGen.tail ih hbc.1

theorem reach_of_stuck {s s' : Sys P H} (hstuck : ∀ a, stepAct a s = none)
    (h : Reach s s') : s' = s := by
  induction h with
  | refl => rfl
  | tail _ hbc ih =>
    subst ih
    obtain ⟨a, ha⟩ := hbc
    rw [hstuck a] at ha
    exact absurd ha (by simp)

/-- Removing the element at a position is a permutation away from moving
it to the front. -/
theorem perm_cons_eraseIdx :
    ∀ (l : List α) (j : Nat) (x : α), l[j]? = some x → l.Perm (x :: l.eraseIdx j)
  | [], j, x, h => by simp at h
  | a :: t, 0, x, h => by
    simp only [List.getElem?_cons_zero, Option.some.injEq] at h
    simp [h]
  | a :: t, j + 1, x, h => by
    simp only [List.getElem?_cons_succ] at h
    have ih := perm_cons_eraseIdx t j x h
    have h1 : (a :: t).Perm (a :: x :: t.eraseIdx j) := ih.cons a
    have h2 : (a :: x :: t.eraseIdx j).Perm (x :: a :: t.eraseIdx j) :=
      List.Perm.swap x a (t.eraseIdx j)
    exact h1.trans h2

/-! Inversion lemmas: what each enabled action tells about the source
state and how it determines the target state. -/

theorem stepAct_run_inv {s s' : Sys P H} (h : stepAct Act.run s = some s') :
    s.dispatcherRunning = false ∧ s' = runUpd s := by
  simp only [stepAct] at h
  split at h
  · simp at h
  · rename_i hd
    exact ⟨Bool.not_eq_true _ ▸ hd, (Option.some.inj h).symm⟩

theorem stepAct_accept_inv {s s' : Sys P H} (h : stepAct Act.acceptTask s = some s') :
    ∃ k p rest, s.dispatcherRunning = true ∧ s.toSubmit = (k, p) :: rest ∧
      s' = acceptUpd s k p rest := by
  simp only [stepAct] at h
  split at h
  · rename_i hd
    split at h
    · simp at h
    · rename_i k p rest hts
      exact ⟨k, p, rest, hd, hts, (Option.some.inj h).symm⟩
  · simp at h

theorem stepAct_claim_inv {s s' : Sys P H} {j : Nat}
    (h : stepAct (Act.claimWorker j) s = some s') :
    ∃ w poolRest t, s.workerPool = w :: poolRest ∧ s.pendingMatch[j]? = some t ∧
      s' = claimUpd s w poolRest j t := by
  simp only [stepAct] at h
  split at h
  · rename_i w poolRest t hp hm
    exact ⟨w, poolRest, t, hp, hm, (Option.some.inj h).symm⟩
  · simp at h

theorem stepAct_deliver_inv {s s' : Sys P H} {j : Nat}
    (h : stepAct (Act.deliverTask j) s = some s') :
    ∃ w t ws, s.claimed[j]? = some (w, t) ∧ s.workers[w]? = some ws ∧
      ws.phase = WPhase.selectWait ∧ s' = deliverUpd s j w ws t := by
  simp only [stepAct] at h
  split at h
  · rename_i w t hc
    split at h
    · rename_i ws hw
      split at h
      · rename_i hph
        exact ⟨w, t, ws, hc, hw, hph, (Option.some.inj h).symm⟩
      · simp at h
    · simp at h
  · simp at h

theorem stepAct_finish_inv {s s' : Sys P H} {w : Nat}
    (h : stepAct (Act.finishTask w) s = some s') :
    ∃ ws t, s.workers[w]? = some ws ∧ ws.phase = WPhase.executing t ∧
      s' = finishUpd s w ws := by
  simp only [stepAct] at h
  split at h
  · rename_i ws hw
    split at h
    · rename_i t hph
      exact ⟨ws, t, hw, hph, (Option.some.inj h).symm⟩
    · simp at h
  · simp at h

theorem stepAct_register_inv {s s' : Sys P H} {w : Nat}
    (h : stepAct (Act.registerIdle w) s = some s') :
    ∃ ws, s.workers[w]? = some ws ∧ ws.phase = WPhase.toRegister ∧
      s.workerPool.length < s.maxWorkers ∧ s' = registerUpd s w ws := by
  simp only [stepAct] at h
  split at h
  · rename_i ws hw
    split at h
    · rename_i hph
      split at h
      · rename_i hlen
        exact ⟨ws, hw, hph, hlen, (Option.some.inj h).symm⟩
      · simp at h
    · simp at h
  · simp at h

theorem stepAct_callStop_inv {s s' : Sys P H} (h : stepAct Act.callStop s = some s') :
    s.stopChannel.requested = false ∧ s' = Stop s := by
  simp only [stepAct] at h
  split at h
  · simp at h
  · rename_i hr
    exact ⟨Bool.not_eq_true _ ▸ hr, (Option.some.inj h).symm⟩

theorem stepAct_observe_inv {s s' : Sys P H} (h : stepAct Act.observeStop s = some s') :
    s.dispatcherRunning = true ∧ s.stopChannel.requested = true ∧
      s.stopChannel.observed = false ∧ s' = observeUpd s := by
  simp only [stepAct] at h
  split at h
  · rename_i hc
    simp only [Bool.and_eq_true, Bool.not_eq_true'] at hc
    exact ⟨hc.1.1, hc.1.2, hc.2, (Option.some.inj h).symm⟩
  · simp at h

theorem stepAct_teardown_inv {s s' : Sys P H} (h : stepAct Act.teardownStep s = some s') :
    ∃ k, s.teardown = some k ∧
      ((∃ ws, k < s.maxWorkers ∧ s.workers[k]? = some ws ∧ s' = teardownWorkerUpd s k ws) ∨
       (s.maxWorkers ≤ k ∧ s' = teardownAckUpd s)) := by
  simp only [stepAct] at h
  split at h
  · rename_i k ht
    split at h
    · rename_i hk
      split at h
      · rename_i ws hw
        exact ⟨k, ht, Or.inl ⟨ws, hk, hw, (Option.some.inj h).symm⟩⟩
      · simp at h
    · rename_i hk
      exact ⟨k, ht, Or.inr ⟨Nat.le_of_not_lt hk, (Option.some.inj h).symm⟩⟩
  · simp at h

theorem stepAct_workerStop_inv {s s' : Sys P H} {w : Nat}
    (h : stepAct (Act.workerObserveStop w) s = some s') :
    ∃ ws, s.workers[w]? = some ws ∧ ws.phase = WPhase.selectWait ∧
      ws.stopChannel.requested = true ∧ s' = workerStopUpd s w ws := by
  simp only [stepAct] at h
  split at h
  · rename_i ws hw
    split at h
    · rename_i hph
      split at h
      · rename_i hr
        exact ⟨ws, hw, hph, hr, (Option.some.inj h).symm⟩
      · simp at h
    · simp at h
  · simp at h

/-! Frame and monotonicity lemmas. -/

/-- No step changes the configuration: worker count, handlers, identity. -/
theorem stepAct_config {a : Act} {s s' : Sys P H} (h : stepAct a s = some s') :
    s'.maxWorkers = s.maxWorkers ∧ s'.handlerFn = s.handlerFn ∧
      s'.handlerMap = s.handlerMap ∧ s'.lp = s.lp := by
  cases a with
  | run => obtain ⟨-, rfl⟩ := stepAct_run_inv h; exact ⟨rfl, rfl, rfl, rfl⟩
  | acceptTask =>
    obtain ⟨k, p, rest, -, -, rfl⟩ := stepAct_accept_inv h; exact ⟨rfl, rfl, rfl, rfl⟩
  | claimWorker j =>
    obtain ⟨w, pr, t, -, -, rfl⟩ := stepAct_claim_inv h; exact ⟨rfl, rfl, rfl, rfl⟩
  | deliverTask j =>
    obtain ⟨w, t, ws, -, -, -, rfl⟩ := stepAct_deliver_inv h; exact ⟨rfl, rfl, rfl, rfl⟩
  | finishTask w =>
    obtain ⟨ws, t, -, -, rfl⟩ := stepAct_finish_inv h; exact ⟨rfl, rfl, rfl, rfl⟩
  | registerIdle w =>
    obtain ⟨ws, -, -, -, rfl⟩ := stepAct_register_inv h; exact ⟨rfl, rfl, rfl, rfl⟩
  | callStop => obtain ⟨-, rfl⟩ := stepAct_callStop_inv h; exact ⟨rfl, rfl, rfl, rfl⟩
  | observeStop => obtain ⟨-, -, -, rfl⟩ := stepAct_observe_inv h; exact ⟨rfl, rfl, rfl, rfl⟩
  | teardownStep =>
    obtain ⟨k, -, hcase⟩ := stepAct_teardown_inv h
    rcases hcase with ⟨ws, -, -, rfl⟩ | ⟨-, rfl⟩ <;> exact ⟨rfl, rfl, rfl, rfl⟩
  | workerObserveStop w =>
    obtain ⟨ws, -, -, -, rfl⟩ := stepAct_workerStop_inv h; exact ⟨rfl, rfl, rfl, rfl⟩

theorem reach_config {s s' : Sys P H} (h : Reach s s') :
    s'.maxWorkers = s.maxWorkers ∧ s'.handlerFn = s.handlerFn ∧
      s'.handlerMap = s.handlerMap ∧ s'.lp = s.lp := by
  induction h with
  | refl => exact ⟨rfl, rfl, rfl, rfl⟩
  | tail _ hbc ih =>
    obtain ⟨a, ha⟩ := hbc
    obtain ⟨h1, h2, h3, h4⟩ := stepAct_config ha
    exact ⟨h1.trans ih.1, h2.trans ih.2.1, h3.trans ih.2.2.1, h4.trans ih.2.2.2⟩

/-- Once the dispatch loop is running it stays running. -/
theorem stepAct_running_mono {a : Act} {s s' : Sys P H} (h : stepAct a s = some s')
    (hr : s.dispatcherRunning = true) : s'.dispatcherRunning = true := by
  cases a with
  | run => obtain ⟨hd, rfl⟩ := stepAct_run_inv h; rw [hd] at hr; exact absurd hr (by simp)
  | acceptTask => obtain ⟨k, p, rest, -, -, rfl⟩ := stepAct_accept_inv h; exact hr
  | claimWorker j => obtain ⟨w, pr, t, -, -, rfl⟩ := stepAct_claim_inv h; exact hr
  | deliverTask j => obtain ⟨w, t, ws, -, -, -, rfl⟩ := stepAct_deliver_inv h; exact hr
  | finishTask w => obtain ⟨ws, t, -, -, rfl⟩ := stepAct_finish_inv h; exact hr
  | registerIdle w => obtain ⟨ws, -, -, -, rfl⟩ := stepAct_register_inv h; exact hr
  | callStop => obtain ⟨-, rfl⟩ := stepAct_callStop_inv h; exact hr
  | observeStop => obtain ⟨-, -, -, rfl⟩ := stepAct_observe_inv h; exact hr
  | teardownStep =>
    obtain ⟨k, -, hcase⟩ := stepAct_teardown_inv h
    rcases hcase with ⟨ws, -, -, rfl⟩ | ⟨-, rfl⟩ <;> exact hr
  | workerObserveStop w => obtain ⟨ws, -, -, -, rfl⟩ := stepAct_workerStop_inv h; exact hr

/-- Once the pool-level stop has been requested it stays requested. -/
theorem stepAct_requested_mono {a : Act} {s s' : Sys P H} (h : stepAct a s = some s')
    (hr : s.stopChannel.requested = true) : s'.stopChannel.requested = true := by
  cases a with
  | run => obtain ⟨-, rfl⟩ := stepAct_run_inv h; exact hr
  | acceptTask => obtain ⟨k, p, rest, -, -, rfl⟩ := stepAct_accept_inv h; exact hr
  | claimWorker j => obtain ⟨w, pr, t, -, -, rfl⟩ := stepAct_claim_inv h; exact hr
  | deliverTask j => obtain ⟨w, t, ws, -, -, -, rfl⟩ := stepAct_deliver_inv h; exact hr
  | finishTask w => obtain ⟨ws, t, -, -, rfl⟩ := stepAct_finish_inv h; exact hr
  | registerIdle w => obtain ⟨ws, -, -, -, rfl⟩ := stepAct_register_inv h; exact hr
  | callStop => obtain ⟨-, rfl⟩ := stepAct_callStop_inv h; rfl
  | observeStop => obtain ⟨-, -, -, rfl⟩ := stepAct_observe_inv h; exact hr
  | teardownStep =>
    obtain ⟨k, -, hcase⟩ := stepAct_teardown_inv h
    rcases hcase with ⟨ws, -, -, rfl⟩ | ⟨-, rfl⟩ <;> exact hr
  | workerObserveStop w => obtain ⟨ws, -, -, -, rfl⟩ := stepAct_workerStop_inv h; exact hr

/-- If the stop was never requested in a later state it was never
requested earlier either: along any run the flag is monotone. -/
theorem reach_requested_mono {s s' : Sys P H} (h : Reach s s')
    (hr : s.stopChannel.requested = true) : s'.stopChannel.requested = true := by
  induction h with
  | refl => exact hr
  | tail _ hbc ih => obtain ⟨a, ha⟩ := hbc; exact stepAct_requested_mono ha ih

/-- The trace of outcomes only ever grows, by appending. -/
theorem stepAct_events_mono {a : Act} {s s' : Sys P H} (h : stepAct a s = some s') :
    ∃ tl, s'.events = s.events ++ tl := by
  cases a with
  | run => obtain ⟨-, rfl⟩ := stepAct_run_inv h; exact ⟨[], by simp [runUpd]⟩
  | acceptTask =>
    obtain ⟨k, p, rest, -, -, rfl⟩ := stepAct_accept_inv h; exact ⟨[], by simp [acceptUpd]⟩
  | claimWorker j =>
    obtain ⟨w, pr, t, -, -, rfl⟩ := stepAct_claim_inv h; exact ⟨[], by simp [claimUpd]⟩
  | deliverTask j =>
    obtain ⟨w, t, ws, -, -, -, rfl⟩ := stepAct_deliver_inv h
    exact ⟨[executeTask s.handlerFn s.handlerMap (stamp s ws t)], rfl⟩
  | finishTask w =>
    obtain ⟨ws, t, -, -, rfl⟩ := stepAct_finish_inv h; exact ⟨[], by simp [finishUpd]⟩
  | registerIdle w =>
    obtain ⟨ws, -, -, -, rfl⟩ := stepAct_register_inv h; exact ⟨[], by simp [registerUpd]⟩
  | callStop => obtain ⟨-, rfl⟩ := stepAct_callStop_inv h; exact ⟨[], by simp [Stop]⟩
  | observeStop => obtain ⟨-, -, -, rfl⟩ := stepAct_observe_inv h; exact ⟨[], by simp [observeUpd]⟩
  | teardownStep =>
    obtain ⟨k, -, hcase⟩ := stepAct_teardown_inv h
    rcases hcase with ⟨ws, -, -, rfl⟩ | ⟨-, rfl⟩
    · exact ⟨[], by simp [teardownWorkerUpd]⟩
    · exact ⟨[], by simp [teardownAckUpd]⟩
  | workerObserveStop w =>
    obtain ⟨ws, -, -, -, rfl⟩ := stepAct_workerStop_inv h; exact ⟨[], by simp [workerStopUpd]⟩

/-! Counting the occurrences of an inbox in registry-plus-claims across the
updates that move inboxes around. -/

theorem mem_of_getElemQ {α : Type} {l : List α} {n : Nat} {a : α} (h : l[n]? = some a) :
    a ∈ l := by
  obtain ⟨hlt, rfl⟩ := List.getElem?_eq_some_iff.1 h
  exact List.getElem_mem hlt

theorem poolClaim_claimUpd {s : Sys P H} {w : Nat} {pr : List Nat} {j : Nat} {t : Task P}
    (hp : s.workerPool = w :: pr) (x : Nat) :
    (poolClaim (claimUpd s w pr j t)).count x = (poolClaim s).count x := by
  by_cases hwx : w = x <;>
    simp [poolClaim, claimUpd, hp, List.count_append, List.count_cons, hwx] <;> omega

theorem poolClaim_deliverUpd_count {s : Sys P H} {j w : Nat} (ws : Worker P) {t : Task P}
    (hc : s.claimed[j]? = some (w, t)) (x : Nat) :
    (poolClaim s).count x =
      (poolClaim (deliverUpd s j w ws t)).count x + (if w = x then 1 else 0) := by
  have hperm := (perm_cons_eraseIdx s.claimed j (w, t) hc).map Prod.fst
  have hcnt := hperm.count_eq x
  by_cases hwx : w = x <;>
    simp [List.count_cons, hwx] at hcnt <;>
    simp [poolClaim, deliverUpd, List.count_append, hcnt, hwx] <;> omega

theorem poolClaim_registerUpd_count {s : Sys P H} {w : Nat} {ws : Worker P} (x : Nat) :
    (poolClaim (registerUpd s w ws)).count x =
      (poolClaim s).count x + (if w = x then 1 else 0) := by
  by_cases hwx : w = x <;>
    simp [poolClaim, registerUpd, List.count_append, List.count_cons, hwx] <;> omega

theorem pristine_phase {s : Sys P H}
    (h0 : s.workers = List.replicate s.maxWorkers workerZero)
    {w : Nat} {ws : Worker P} (hw : s.workers[w]? = some ws) : ws.phase = WPhase.created := by
  rw [h0] at hw
  rw [List.eq_of_mem_replicate (mem_of_getElemQ hw)]
  rfl

theorem deliverUpd_workers {s : Sys P H} {j w : Nat} {ws : Worker P} {t : Task P} :
    (deliverUpd s j w ws t).workers =
      s.workers.set w { ws with phase := WPhase.executing (stamp s ws t) } := rfl

theorem finishUpd_workers {s : Sys P H} {w : Nat} {ws : Worker P} :
    (finishUpd s w ws).workers = s.workers.set w { ws with phase := WPhase.toRegister } := rfl

theorem registerUpd_workers {s : Sys P H} {w : Nat} {ws : Worker P} :
    (registerUpd s w ws).workers = s.workers.set w { ws with phase := WPhase.selectWait } := rfl

theorem teardownWorkerUpd_workers {s : Sys P H} {k : Nat} {ws : Worker P} :
    (teardownWorkerUpd s k ws).workers =
      s.workers.set k
        { ws with stopChannel := { ws.stopChannel with requested := true } } := rfl

theorem workerStopUpd_workers {s : Sys P H} {w : Nat} {ws : Worker P} :
    (workerStopUpd s w ws).workers =
      s.workers.set w
        { ws with phase := WPhase.stopped
                  stopChannel := { ws.stopChannel with observed := true, acked := true } } := rfl

/-! Preservation of the structural worker/registry invariant. -/

theorem invW_step {a : Act} {s s' : Sys P H} (h : stepAct a s = some s') (inv : InvW s) :
    InvW s' := by
  obtain ⟨hlen, hpre, hstarted, hmem, hcnt, hph⟩ := inv
  cases a with
  | run =>
    obtain ⟨hd, rfl⟩ := stepAct_run_inv h
    obtain ⟨hw0, hpool0, hpm0, hcl0, hev0, htd0, hob0⟩ := hpre hd
    refine ⟨by simp [runUpd], ?_, ?_, ?_, ?_, ?_⟩
    · intro habs; simp [runUpd] at habs
    · intro _ ws hws
      simp only [runUpd, List.mem_map] at hws
      obtain ⟨i, -, rfl⟩ := hws
      simp
    · intro x hx
      exfalso
      have : poolClaim (runUpd s) = [] := by simp [poolClaim, runUpd, hpool0, hcl0]
      rw [this] at hx
      exact List.not_mem_nil x hx
    · intro x
      have : poolClaim (runUpd s) = [] := by simp [poolClaim, runUpd, hpool0, hcl0]
      simp [this]
    · intro w ws hws
      have hemp : poolClaim (runUpd s) = [] := by simp [poolClaim, runUpd, hpool0, hcl0]
      constructor
      · intro hphw
        exfalso
        simp only [runUpd, List.getElem?_map, Option.map_eq_some'] at hws
        obtain ⟨i, -, rfl⟩ := hws
        simp at hphw
      · intro hc1
        rw [hemp] at hc1
        simp at hc1
  | acceptTask =>
    obtain ⟨k, p, rest, hd, hts, rfl⟩ := stepAct_accept_inv h
    refine ⟨hlen, ?_, hstarted, hmem, hcnt, hph⟩
    intro habs
    rw [show (acceptUpd s k p rest).dispatcherRunning = s.dispatcherRunning from rfl, hd] at habs
    cases habs
  | claimWorker j =>
    obtain ⟨w, pr, t, hp, hm, rfl⟩ := stepAct_claim_inv h
    refine ⟨hlen, ?_, hstarted, ?_, ?_, ?_⟩
    · intro habs
      obtain ⟨-, hpool0, -, -, -, -, -⟩ := hpre habs
      rw [hpool0] at hp
      cases hp
    · intro x hx
      have hpos := List.count_pos_iff.2 hx
      rw [poolClaim_claimUpd hp x] at hpos
      exact hmem x (List.count_pos_iff.1 hpos)
    · intro x
      rw [poolClaim_claimUpd hp x]
      exact hcnt x
    · intro w' ws hws
      have h1 := hph w' ws hws
      constructor
      · intro hphw
        rw [poolClaim_claimUpd hp w']
        exact h1.1 hphw
      · intro hc1
        rw [poolClaim_claimUpd hp w'] at hc1
        exact h1.2 hc1
  | deliverTask j =>
    obtain ⟨w, t, ws, hc, hw, hph0, rfl⟩ := stepAct_deliver_inv h
    have hwlt : w < s.workers.length := (List.getElem?_eq_some_iff.1 hw).1
    refine ⟨by simp [deliverUpd, List.length_set, hlen], ?_, ?_, ?_, ?_, ?_⟩
    · intro habs
      obtain ⟨-, -, -, hcl0, -, -, -⟩ := hpre habs
      rw [hcl0] at hc
      simp at hc
    · intro hrun ws' hmem'
      rcases List.mem_or_eq_of_mem_set hmem' with hold | rfl
      · exact hstarted hrun ws' hold
      · simp
    · intro x hx
      have hpos := List.count_pos_iff.2 hx
      have heq := poolClaim_deliverUpd_count ws hc x
      have : 0 < (poolClaim s).count x :=
        heq ▸ Nat.lt_of_lt_of_le hpos (Nat.le_add_right _ _)
      exact hmem x (List.count_pos_iff.1 this)
    · intro x
      have heq := poolClaim_deliverUpd_count ws hc x
      have := hcnt x
      omega
    · intro w' ws' hws'
      by_cases hwe : w = w'
      · subst hwe
        rw [deliverUpd_workers, List.getElem?_set_eq_of_lt _ hwlt] at hws'
        obtain rfl := Option.some.inj hws'
        constructor
        · intro habs; simp at habs
        · intro hc1
          exfalso
          have heq := poolClaim_deliverUpd_count ws hc w
          have hold1 : (poolClaim s).count w = 1 := (hph w ws hw).1 hph0
          simp [hc1, hold1] at heq
      · rw [deliverUpd_workers, List.getElem?_set_ne hwe] at hws'
        have h1 := hph w' ws' hws'
        have heq := poolClaim_deliverUpd_count ws hc w'
        rw [if_neg hwe] at heq
        constructor
        · intro hphw
          have := h1.1 hphw
          omega
        · intro hc1
          exact h1.2 (by omega)
  | finishTask w =>
    obtain ⟨ws, t, hw, hph0, rfl⟩ := stepAct_finish_inv h
    have hwlt : w < s.workers.length := (List.getElem?_eq_some_iff.1 hw).1
    refine ⟨by simp [finishUpd, List.length_set, hlen], ?_, ?_, hmem, hcnt, ?_⟩
    · intro habs
      obtain ⟨hw0, -, -, -, -, -, -⟩ := hpre habs
      have := pristine_phase hw0 hw
      rw [hph0] at this
      cases this
    · intro hrun ws' hmem'
      rcases List.mem_or_eq_of_mem_set hmem' with hold | rfl
      · exact hstarted hrun ws' hold
      · simp
    · intro w' ws' hws'
      by_cases hwe : w = w'
      · subst hwe
        rw [finishUpd_workers, List.getElem?_set_eq_of_lt _ hwlt] at hws'
        obtain rfl := Option.some.inj hws'
        constructor
        · intro habs; simp at habs
        · intro hc1
          exfalso
          rcases (hph w ws hw).2 hc1 with hcase | hcase <;> rw [hph0] at hcase <;> cases hcase
      · rw [finishUpd_workers, List.getElem?_set_ne hwe] at hws'
        exact hph w' ws' hws'
  | registerIdle w =>
    obtain ⟨ws, hw, hph0, hplen, rfl⟩ := stepAct_register_inv h
    have hwlt : w < s.workers.length := (List.getElem?_eq_some_iff.1 hw).1
    have hcnt0 : (poolClaim s).count w = 0 := by
      have h2 := (hph w ws hw).2
      have := hcnt w
      rcases Nat.lt_or_ge ((poolClaim s).count w) 1 with hlt | hge
      · omega
      · exfalso
        have hc1 : (poolClaim s).count w = 1 := by omega
        rcases h2 hc1 with hcase | hcase <;> rw [hph0] at hcase <;> cases hcase
    refine ⟨by simp [registerUpd, List.length_set, hlen], ?_, ?_, ?_, ?_, ?_⟩
    · intro habs
      obtain ⟨hw0, -, -, -, -, -, -⟩ := hpre habs
      have := pristine_phase hw0 hw
      rw [hph0] at this
      cases this
    · intro hrun ws' hmem'
      rcases List.mem_or_eq_of_mem_set hmem' with hold | rfl
      · exact hstarted hrun ws' hold
      · simp
    · intro x hx
      have hpos := List.count_pos_iff.2 hx
      rw [poolClaim_registerUpd_count x] at hpos
      by_cases hwx : w = x
      · subst hwx
        rw [hlen] at hwlt
        exact hwlt
      · rw [if_neg hwx, Nat.add_zero] at hpos
        exact hmem x (List.count_pos_iff.1 hpos)
    · intro x
      rw [poolClaim_registerUpd_count x]
      by_cases hwx : w = x
      · subst hwx
        simp [hcnt0]
      · rw [if_neg hwx, Nat.add_zero]
        exact hcnt x
    · intro w' ws' hws'
      by_cases hwe : w = w'
      · subst hwe
        rw [registerUpd_workers, List.getElem?_set_eq_of_lt _ hwlt] at hws'
        obtain rfl := Option.some.inj hws'
        constructor
        · intro _
          rw [poolClaim_registerUpd_count w, if_pos rfl, hcnt0]
        · intro _
          exact Or.inl rfl
      · rw [registerUpd_workers, List.getElem?_set_ne hwe] at hws'
        have h1 := hph w' ws' hws'
        rw [poolClaim_registerUpd_count w', if_neg hwe, Nat.add_zero]
        exact h1
  | callStop =>
    obtain ⟨-, rfl⟩ := stepAct_callStop_inv h
    exact ⟨hlen, hpre, hstarted, hmem, hcnt, hph⟩
  | observeStop =>
    obtain ⟨hd, -, -, rfl⟩ := stepAct_observe_inv h
    refine ⟨hlen, ?_, hstarted, hmem, hcnt, hph⟩
    intro habs
    rw [show (observeUpd s).dispatcherRunning = s.dispatcherRunning from rfl, hd] at habs
    cases habs
  | teardownStep =>
    obtain ⟨k, ht, hcase⟩ := stepAct_teardown_inv h
    rcases hcase with ⟨ws, hk, hw, rfl⟩ | ⟨hk, rfl⟩
    · have hwlt : k < s.workers.length := (List.getElem?_eq_some_iff.1 hw).1
      refine ⟨by simp [teardownWorkerUpd, List.length_set, hlen], ?_, ?_, hmem, hcnt, ?_⟩
      · intro habs
        obtain ⟨-, -, -, -, -, htd0, -⟩ := hpre habs
        rw [htd0] at ht
        cases ht
      · intro hrun ws' hmem'
        rcases List.mem_or_eq_of_mem_set hmem' with hold | rfl
        · exact hstarted hrun ws' hold
        · have := hstarted hrun ws (mem_of_getElemQ hw)
          simpa using this
      · intro w' ws' hws'
        by_cases hwe : k = w'
        · subst hwe
          rw [teardownWorkerUpd_workers, List.getElem?_set_eq_of_lt _ hwlt] at hws'
          obtain rfl := Option.some.inj hws'
          have h1 := hph k ws hw
          constructor
          · intro hphw
            exact h1.1 (by simpa using hphw)
          · intro hc1
            have := h1.2 hc1
            simpa using this
        · rw [teardownWorkerUpd_workers, List.getElem?_set_ne hwe] at hws'
          exact hph w' ws' hws'
    · refine ⟨hlen, ?_, hstarted, hmem, hcnt, hph⟩
      intro habs
      obtain ⟨hw0, h1, h2, h3, h4, -, h6⟩ := hpre habs
      exact ⟨hw0, h1, h2, h3, h4, rfl, h6⟩
  | workerObserveStop w =>
    obtain ⟨ws, hw, hph0, hreq, rfl⟩ := stepAct_workerStop_inv h
    have hwlt : w < s.workers.length := (List.getElem?_eq_some_iff.1 hw).1
    refine ⟨by simp [workerStopUpd, List.length_set, hlen], ?_, ?_, hmem, hcnt, ?_⟩
    · intro habs
      obtain ⟨hw0, -, -, -, -, -, -⟩ := hpre habs
      have := pristine_phase hw0 hw
      rw [hph0] at this
      cases this
    · intro hrun ws' hmem'
      rcases List.mem_or_eq_of_mem_set hmem' with hold | rfl
      · exact hstarted hrun ws' hold
      · simp
    · intro w' ws' hws'
      by_cases hwe : w = w'
      · subst hwe
        rw [workerStopUpd_workers, List.getElem?_set_eq_of_lt _ hwlt] at hws'
        obtain rfl := Option.some.inj hws'
        constructor
        · intro habs; simp at habs
        · intro _
          exact Or.inr rfl
      · rw [workerStopUpd_workers, List.getElem?_set_ne hwe] at hws'
        exact hph w' ws' hws'

/-! Small facts about tasks and outcomes. -/

/-- The outcome of `executeTask` carries exactly the task it was run on. -/
theorem executeTask_task {hf : Option H} {hm : List (Int × Option H)} {t : Task P} :
    (executeTask hf hm t).task = t := by
  unfold executeTask
  cases hf with
  | some f => rfl
  | none =>
    cases mapLookup hm t.taskName with
    | some g => rfl
    | none => rfl

/-- Stamping the logging identity does not change kind or payload. -/
theorem taskCore_stamp {s : Sys P H} {ws : Worker P} {t : Task P} :
    taskCore (stamp s ws t) = taskCore t := rfl

theorem evCore_executeTask {hf : Option H} {hm : List (Int × Option H)} {t : Task P} :
    evCore (executeTask hf hm t) = taskCore t := by
  unfold evCore
  rw [executeTask_task]

/-! Preservation of the stop-handshake invariant. -/

theorem invStop_step {a : Act} {s s' : Sys P H} (h : stepAct a s = some s') (inv : InvStop s) :
    InvStop s' := by
  obtain ⟨hor, htd, hws, hstopped⟩ := inv
  cases a with
  | run =>
    obtain ⟨-, rfl⟩ := stepAct_run_inv h
    refine ⟨hor, htd, ?_, ?_⟩
    · intro ws hmem hyp
      exfalso
      simp only [runUpd, List.mem_map] at hmem
      obtain ⟨i, -, rfl⟩ := hmem
      simp [StopChannel.new] at hyp
    · intro ws hmem hyp
      exfalso
      simp only [runUpd, List.mem_map] at hmem
      obtain ⟨i, -, rfl⟩ := hmem
      simp at hyp
  | acceptTask =>
    obtain ⟨k, p, rest, -, -, rfl⟩ := stepAct_accept_inv h
    exact ⟨hor, htd, hws, hstopped⟩
  | claimWorker j =>
    obtain ⟨w, pr, t, -, -, rfl⟩ := stepAct_claim_inv h
    exact ⟨hor, htd, hws, hstopped⟩
  | deliverTask j =>
    obtain ⟨w, t, ws0, -, hw, -, rfl⟩ := stepAct_deliver_inv h
    refine ⟨hor, htd, ?_, ?_⟩
    · intro ws hmem hyp
      rw [deliverUpd_workers] at hmem
      rcases List.mem_or_eq_of_mem_set hmem with hold | rfl
      · exact hws ws hold hyp
      · rcases hyp with hyp | hyp
        · exact hws ws0 (mem_of_getElemQ hw) (Or.inl hyp)
        · cases hyp
    · intro ws hmem hyp
      rw [deliverUpd_workers] at hmem
      rcases List.mem_or_eq_of_mem_set hmem with hold | rfl
      · exact hstopped ws hold hyp
      · cases hyp
  | finishTask w =>
    obtain ⟨ws0, t, hw, -, rfl⟩ := stepAct_finish_inv h
    refine ⟨hor, htd, ?_, ?_⟩
    · intro ws hmem hyp
      rw [finishUpd_workers] at hmem
      rcases List.mem_or_eq_of_mem_set hmem with hold | rfl
      · exact hws ws hold hyp
      · rcases hyp with hyp | hyp
        · exact hws ws0 (mem_of_getElemQ hw) (Or.inl hyp)
        · cases hyp
    · intro ws hmem hyp
      rw [finishUpd_workers] at hmem
      rcases List.mem_or_eq_of_mem_set hmem with hold | rfl
      · exact hstopped ws hold hyp
      · cases hyp
  | registerIdle w =>
    obtain ⟨ws0, hw, -, -, rfl⟩ := stepAct_register_inv h
    refine ⟨hor, htd, ?_, ?_⟩
    · intro ws hmem hyp
      rw [registerUpd_workers] at hmem
      rcases List.mem_or_eq_of_mem_set hmem with hold | rfl
      · exact hws ws hold hyp
      · rcases hyp with hyp | hyp
        · exact hws ws0 (mem_of_getElemQ hw) (Or.inl hyp)
        · cases hyp
    · intro ws hmem hyp
      rw [registerUpd_workers] at hmem
      rcases List.mem_or_eq_of_mem_set hmem with hold | rfl
      · exact hstopped ws hold hyp
      · cases hyp
  | callStop =>
    obtain ⟨-, rfl⟩ := stepAct_callStop_inv h
    exact ⟨fun _ => rfl, fun k hk => htd k hk, hws, hstopped⟩
  | observeStop =>
    obtain ⟨-, hreq, -, rfl⟩ := stepAct_observe_inv h
    refine ⟨fun _ => hreq, ?_, fun ws hmem _ => rfl, hstopped⟩
    intro k hk
    obtain rfl := Option.some.inj hk
    exact ⟨rfl, Nat.zero_le _⟩
  | teardownStep =>
    obtain ⟨k, ht, hcase⟩ := stepAct_teardown_inv h
    obtain ⟨hobs, hkle⟩ := htd k ht
    rcases hcase with ⟨ws0, hk, hw, rfl⟩ | ⟨hk, rfl⟩
    · refine ⟨hor, ?_, ?_, ?_⟩
      · intro k' hk'
        obtain rfl := Option.some.inj hk'
        exact ⟨hobs, hk⟩
      · intro ws hmem _
        exact hobs
      · intro ws hmem hyp
        rw [teardownWorkerUpd_workers] at hmem
        rcases List.mem_or_eq_of_mem_set hmem with hold | rfl
        · exact hstopped ws hold hyp
        · have := hstopped ws0 (mem_of_getElemQ hw) hyp
          exact ⟨rfl, this.2⟩
    · refine ⟨hor, ?_, hws, hstopped⟩
      intro k' hk'
      cases hk'
  | workerObserveStop w =>
    obtain ⟨ws0, hw, -, hreq, rfl⟩ := stepAct_workerStop_inv h
    refine ⟨hor, htd, ?_, ?_⟩
    · intro ws hmem hyp
      rw [workerStopUpd_workers] at hmem
      rcases List.mem_or_eq_of_mem_set hmem with hold | rfl
      · exact hws ws hold hyp
      · exact hws ws0 (mem_of_getElemQ hw) (Or.inl hreq)
    · intro ws hmem hyp
      rw [workerStopUpd_workers] at hmem
      rcases List.mem_or_eq_of_mem_set hmem with hold | rfl
      · exact hstopped ws hold hyp
      · exact ⟨hreq, rfl⟩

/-! Preservation of the task-accounting invariant. -/

theorem invAccount_step {tasks : List (Int × P)} {a : Act} {s s' : Sys P H}
    (h : stepAct a s = some s') (inv : InvAccount tasks s) : InvAccount tasks s' := by
  obtain ⟨pre, hsplit, hperm⟩ := inv
  cases a with
  | run =>
    obtain ⟨-, rfl⟩ := stepAct_run_inv h
    exact ⟨pre, hsplit, hperm⟩
  | acceptTask =>
    letI : DecidableEq P := Classical.decEq P
    obtain ⟨k, p, rest, -, hts, rfl⟩ := stepAct_accept_inv h
    refine ⟨pre ++ [(k, p)], ?_, ?_⟩
    · rw [hsplit, hts]
      simp [acceptUpd]
    · rw [List.perm_iff_count]
      intro c
      have hold := hperm.count_eq c
      simp only [accountedCores, acceptUpd, List.map_append, List.count_append,
        List.map_cons, List.map_nil, List.count_cons, List.count_nil] at hold ⊢
      have hcore : taskCore (mkTask k p) = (k, p) := rfl
      rw [hcore]
      omega
  | claimWorker j =>
    letI : DecidableEq P := Classical.decEq P
    obtain ⟨w, pr, t, -, hm, rfl⟩ := stepAct_claim_inv h
    refine ⟨pre, hsplit, hperm.trans ?_⟩
    rw [List.perm_iff_count]
    intro c
    have hq := ((perm_cons_eraseIdx s.pendingMatch j t hm).map taskCore).count_eq c
    simp only [List.map_cons, List.count_cons] at hq
    simp only [accountedCores, claimUpd, List.map_append, List.count_append,
      List.map_cons, List.map_nil, List.count_cons, List.count_nil]
    omega
  | deliverTask j =>
    letI : DecidableEq P := Classical.decEq P
    obtain ⟨w, t, ws, hc, -, -, rfl⟩ := stepAct_deliver_inv h
    refine ⟨pre, hsplit, hperm.trans ?_⟩
    rw [List.perm_iff_count]
    intro c
    have hq := ((perm_cons_eraseIdx s.claimed j (w, t) hc).map
      (fun wt => taskCore wt.2)).count_eq c
    simp only [List.map_cons, List.count_cons] at hq
    simp only [accountedCores, deliverUpd, List.map_append, List.count_append,
      List.map_cons, List.map_nil, List.count_cons, List.count_nil]
    have hev : evCore (executeTask s.handlerFn s.handlerMap (stamp s ws t)) = taskCore t := by
      rw [evCore_executeTask, taskCore_stamp]
    rw [hev]
    omega
  | finishTask w =>
    obtain ⟨ws, t, -, -, rfl⟩ := stepAct_finish_inv h
    exact ⟨pre, hsplit, hperm⟩
  | registerIdle w =>
    obtain ⟨ws, -, -, -, rfl⟩ := stepAct_register_inv h
    exact ⟨pre, hsplit, hperm⟩
  | callStop =>
    obtain ⟨-, rfl⟩ := stepAct_callStop_inv h
    exact ⟨pre, hsplit, hperm⟩
  | observeStop =>
    obtain ⟨-, -, -, rfl⟩ := stepAct_observe_inv h
    exact ⟨pre, hsplit, hperm⟩
  | teardownStep =>
    obtain ⟨k, -, hcase⟩ := stepAct_teardown_inv h
    rcases hcase with ⟨ws, -, -, rfl⟩ | ⟨-, rfl⟩ <;> exact ⟨pre, hsplit, hperm⟩
  | workerObserveStop w =>
    obtain ⟨ws, -, -, -, rfl⟩ := stepAct_workerStop_inv h
    exact ⟨pre, hsplit, hperm⟩

/-! Preservation of the task-identity frame invariant. -/

theorem invLp_step {a : Act} {s s' : Sys P H} (h : stepAct a s = some s') (inv : InvLp s) :
    InvLp s' := by
  obtain ⟨hpm, hcl, hev⟩ := inv
  cases a with
  | run =>
    obtain ⟨-, rfl⟩ := stepAct_run_inv h
    exact ⟨hpm, hcl, hev⟩
  | acceptTask =>
    obtain ⟨k, p, rest, -, -, rfl⟩ := stepAct_accept_inv h
    refine ⟨?_, hcl, hev⟩
    intro t hmem
    rw [show (acceptUpd s k p rest).pendingMatch = s.pendingMatch ++ [mkTask k p] from rfl,
      List.mem_append] at hmem
    rcases hmem with hold | hnew
    · exact hpm t hold
    · rw [List.mem_singleton] at hnew
      subst hnew
      rfl
  | claimWorker j =>
    obtain ⟨w, pr, t0, -, hm, rfl⟩ := stepAct_claim_inv h
    refine ⟨?_, ?_, hev⟩
    · intro t hmem
      rw [show (claimUpd s w pr j t0).pendingMatch = s.pendingMatch.eraseIdx j from rfl] at hmem
      exact hpm t ((List.eraseIdx_sublist s.pendingMatch j).mem hmem)
    · intro wt hmem
      rw [show (claimUpd s w pr j t0).claimed = s.claimed ++ [(w, t0)] from rfl,
        List.mem_append] at hmem
      rcases hmem with hold | hnew
      · exact hcl wt hold
      · rw [List.mem_singleton] at hnew
        subst hnew
        exact hpm t0 (mem_of_getElemQ hm)
  | deliverTask j =>
    obtain ⟨w, t0, ws, hc, -, -, rfl⟩ := stepAct_deliver_inv h
    refine ⟨hpm, ?_, ?_⟩
    · intro wt hmem
      rw [show (deliverUpd s j w ws t0).claimed = s.claimed.eraseIdx j from rfl] at hmem
      exact hcl wt ((List.eraseIdx_sublist s.claimed j).mem hmem)
    · intro e hmem
      rw [show (deliverUpd s j w ws t0).events =
        s.events ++ [executeTask s.handlerFn s.handlerMap (stamp s ws t0)] from rfl,
        List.mem_append] at hmem
      rcases hmem with hold | hnew
      · exact hev e hold
      · rw [List.mem_singleton] at hnew
        subst hnew
        refine ⟨?_, ?_⟩
        · rw [executeTask_task]
          rfl
        · rw [executeTask_task]
          rfl
  | finishTask w =>
    obtain ⟨ws, t, -, -, rfl⟩ := stepAct_finish_inv h
    exact ⟨hpm, hcl, hev⟩
  | registerIdle w =>
    obtain ⟨ws, -, -, -, rfl⟩ := stepAct_register_inv h
    exact ⟨hpm, hcl, hev⟩
  | callStop =>
    obtain ⟨-, rfl⟩ := stepAct_callStop_inv h
    exact ⟨hpm, hcl, hev⟩
  | observeStop =>
    obtain ⟨-, -, -, rfl⟩ := stepAct_observe_inv h
    exact ⟨hpm, hcl, hev⟩
  | teardownStep =>
    obtain ⟨k, -, hcase⟩ := stepAct_teardown_inv h
    rcases hcase with ⟨ws, -, -, rfl⟩ | ⟨-, rfl⟩ <;> exact ⟨hpm, hcl, hev⟩
  | workerObserveStop w =>
    obtain ⟨ws, -, -, -, rfl⟩ := stepAct_workerStop_inv h
    exact ⟨hpm, hcl, hev⟩

/-! Invariants hold initially, hence in every reachable state. -/

theorem invW_init {n : Nat} {hf : Option H} {hm : List (Int × Option H)}
    {tasks : List (Int × P)} : InvW (initSys n hf hm tasks) := by
  refine ⟨by simp [initSys, New], ?_, ?_, ?_, ?_, ?_⟩
  · intro _
    exact ⟨rfl, rfl, rfl, rfl, rfl, rfl, rfl⟩
  · intro habs
    cases habs
  · intro x hx
    exact absurd hx (List.not_mem_nil x)
  · intro x
    exact Nat.zero_le 1
  · intro w ws hws
    have hphase : ws.phase = WPhase.created := pristine_phase rfl hws
    constructor
    · intro habs
      rw [hphase] at habs
      cases habs
    · intro habs
      cases habs

theorem invStop_init {n : Nat} {hf : Option H} {hm : List (Int × Option H)}
    {tasks : List (Int × P)} : InvStop (initSys n hf hm tasks) := by
  refine ⟨?_, ?_, ?_, ?_⟩
  · intro habs
    cases habs
  · intro k hk
    cases hk
  · intro ws hmem hyp
    exfalso
    have := List.eq_of_mem_replicate (a := (workerZero : Worker P)) hmem
    subst this
    rcases hyp with hyp | hyp
    · cases hyp
    · cases hyp
  · intro ws hmem hyp
    exfalso
    have := List.eq_of_mem_replicate (a := (workerZero : Worker P)) hmem
    subst this
    cases hyp

theorem invAccount_init {n : Nat} {hf : Option H} {hm : List (Int × Option H)}
    {tasks : List (Int × P)} : InvAccount tasks (initSys n hf hm tasks) :=
  ⟨[], rfl, List.Perm.refl []⟩

theorem invLp_init {n : Nat} {hf : Option H} {hm : List (Int × Option H)}
    {tasks : List (Int × P)} : InvLp (initSys n hf hm tasks) := by
  refine ⟨?_, ?_, ?_⟩ <;> intro x hx <;> exact absurd hx (List.not_mem_nil x)

theorem invAll_step {tasks : List (Int × P)} {a : Act} {s s' : Sys P H}
    (h : stepAct a s = some s') (inv : InvAll tasks s) : InvAll tasks s' :=
  ⟨invW_step h inv.1, invStop_step h inv.2.1, invAccount_step h inv.2.2.1,
    invLp_step h inv.2.2.2⟩

theorem invAll_reach {n : Nat} {hf : Option H} {hm : List (Int × Option H)}
    {tasks : List (Int × P)} {s : Sys P H}
    (h : Reach (initSys n hf hm tasks) s) : InvAll tasks s := by
  induction h with
  | refl => exact ⟨invW_init, invStop_init, invAccount_init, invLp_init⟩
  | tail _ hbc ih =>
    obtain ⟨a, ha⟩ := hbc
    exact invAll_step ha ih

/-! Enabledness: sufficient conditions under which an action fires. -/

theorem accept_enabled {s : Sys P H} (hrun : s.dispatcherRunning = true)
    {k : Int} {p : P} {rest : List (Int × P)} (hts : s.toSubmit = (k, p) :: rest) :
    stepAct Act.acceptTask s = some (acceptUpd s k p rest) := by
  simp [stepAct, hrun, hts]

theorem claim_enabled {s : Sys P H} {w : Nat} {pr : List Nat} {j : Nat} {t : Task P}
    (hp : s.workerPool = w :: pr) (hm : s.pendingMatch[j]? = some t) :
    stepAct (Act.claimWorker j) s = some (claimUpd s w pr j t) := by
  simp [stepAct, hp, hm]

theorem deliver_enabled {s : Sys P H} {j w : Nat} {t : Task P} {ws : Worker P}
    (hc : s.claimed[j]? = some (w, t)) (hw : s.workers[w]? = some ws)
    (hph : ws.phase = WPhase.selectWait) :
    stepAct (Act.deliverTask j) s = some (deliverUpd s j w ws t) := by
  simp [stepAct, hc, hw, hph]

theorem finish_enabled {s : Sys P H} {w : Nat} {ws : Worker P} {t : Task P}
    (hw : s.workers[w]? = some ws) (hph : ws.phase = WPhase.executing t) :
    stepAct (Act.finishTask w) s = some (finishUpd s w ws) := by
  simp [stepAct, hw, hph]

theorem register_enabled {s : Sys P H} {w : Nat} {ws : Worker P}
    (hw : s.workers[w]? = some ws) (hph : ws.phase = WPhase.toRegister)
    (hlen : s.workerPool.length < s.maxWorkers) :
    stepAct (Act.registerIdle w) s = some (registerUpd s w ws) := by
  simp [stepAct, hw, hph, hlen]

/-- Progress: a running, stop-free pool with at least one worker and
outstanding work always has an enabled step — work cannot get stuck
without a stop request. -/
theorem progress {n : Nat} {hf : Option H} {hm : List (Int × Option H)}
    {tasks : List (Int × P)} {s : Sys P H}
    (hreach : Reach (initSys n hf hm tasks) s)
    (hn : 0 < s.maxWorkers)
    (hrun : s.dispatcherRunning = true)
    (hstop : s.stopChannel.requested = false)
    (hq : ¬Quiescent s) : ∃ s', StepR s s' := by
  obtain ⟨invW, invS, -, -⟩ := invAll_reach hreach
  obtain ⟨hlen, -, hstarted, hmem, hcnt, hph⟩ := invW
  obtain ⟨hor, -, hwsr, -⟩ := invS
  have hobs : s.stopChannel.observed = false := by
    cases hob : s.stopChannel.observed with
    | false => rfl
    | true => rw [hor hob] at hstop; cases hstop
  have hnostop : ∀ ws ∈ s.workers, ws.phase ≠ WPhase.stopped := by
    intro ws hmem' habs
    rw [hwsr ws hmem' (Or.inr habs)] at hobs
    cases hobs
  by_cases hts : s.toSubmit = []
  · by_cases hpm : s.pendingMatch = []
    · by_cases hcl : s.claimed = []
      · -- some worker must be mid-execution
        have hex : ∃ ws ∈ s.workers, isExecuting ws.phase = true := by
          by_contra hno
          push_neg at hno
          refine hq ⟨hts, hpm, hcl, fun ws hmem' => ?_⟩
          have := hno ws hmem'
          simpa using this
        obtain ⟨ws, hmem', hex1⟩ := hex
        obtain ⟨w, hw⟩ := List.mem_iff_getElem?.1 hmem'
        cases hphase : ws.phase with
        | executing t => exact ⟨_, Act.finishTask w, finish_enabled hw hphase⟩
        | created => rw [hphase] at hex1; cases hex1
        | toRegister => rw [hphase] at hex1; cases hex1
        | selectWait => rw [hphase] at hex1; cases hex1
        | stopped => rw [hphase] at hex1; cases hex1
      · -- a claiming matching goroutine can deliver
        obtain ⟨⟨w, t⟩, rest, hcl'⟩ := List.exists_cons_of_ne_nil hcl
        have hc0 : s.claimed[0]? = some (w, t) := by rw [hcl']; simp
        have hwpc : w ∈ poolClaim s := by
          rw [poolClaim, List.mem_append, hcl']
          exact Or.inr (by simp)
        have hwlt : w < s.workers.length := by rw [hlen]; exact hmem w hwpc
        cases hw : s.workers[w]? with
        | none =>
          rw [List.getElem?_eq_none_iff] at hw
          omega
        | some ws =>
          have hc1 : (poolClaim s).count w = 1 := by
            have hpos : 0 < (poolClaim s).count w := List.count_pos_iff.2 hwpc
            have := hcnt w
            omega
          rcases (hph w ws hw).2 hc1 with hphase | hphase
          · exact ⟨_, Act.deliverTask 0, deliver_enabled hc0 hw hphase⟩
          · exact absurd hphase (hnostop ws (mem_of_getElemQ hw))
    · -- a waiting matching goroutine exists
      obtain ⟨t, restpm, hpm'⟩ := List.exists_cons_of_ne_nil hpm
      have hm0 : s.pendingMatch[0]? = some t := by rw [hpm']; simp
      cases hp : s.workerPool with
      | cons w pr => exact ⟨_, Act.claimWorker 0, claim_enabled hp hm0⟩
      | nil =>
        -- the pool is empty: worker 0 itself can move
        have h0lt : 0 < s.workers.length := by rw [hlen]; exact hn
        cases hw : s.workers[0]? with
        | none =>
          rw [List.getElem?_eq_none_iff] at hw
          omega
        | some ws =>
          cases hphase : ws.phase with
          | created => exact absurd hphase (hstarted hrun ws (mem_of_getElemQ hw))
          | toRegister =>
            have hplen : s.workerPool.length < s.maxWorkers := by
              rw [hp]
              exact hn
            exact ⟨_, Act.registerIdle 0, register_enabled hw hphase hplen⟩
          | selectWait =>
            have hc1 : (poolClaim s).count 0 = 1 := (hph 0 ws hw).1 hphase
            have hwpc : (0 : Nat) ∈ poolClaim s :=
              List.count_pos_iff.1 (by omega)
            rw [poolClaim, hp, List.nil_append, List.mem_map] at hwpc
            obtain ⟨⟨w0, t0⟩, hmemc, hfst⟩ := hwpc
            obtain ⟨j, hj⟩ := List.mem_iff_getElem?.1 hmemc
            have hj' : s.claimed[j]? = some (0, t0) := by
              rw [hj]
              simp at hfst
              rw [hfst]
            exact ⟨_, Act.deliverTask j, deliver_enabled hj' hw hphase⟩
          | executing t0 => exact ⟨_, Act.finishTask 0, finish_enabled hw hphase⟩
          | stopped => exact absurd hphase (hnostop ws (mem_of_getElemQ hw))
  · obtain ⟨⟨k, p⟩, rest, hts'⟩ := List.exists_cons_of_ne_nil hts
    exact ⟨_, Act.acceptTask, accept_enabled hrun hts'⟩

/-! Handler resolution and the shape of traced outcomes. -/

/-- When resolution finds a handler, `executeTask` invokes exactly it. -/
theorem executeTask_invoked {hf : Option H} {hm : List (Int × Option H)} {t : Task P} {g : H}
    (hres : resolveHandler hf hm t.taskName = some g) :
    executeTask hf hm t = ExecOutcome.invoked g t := by
  cases hf with
  | some f =>
    have hfg : some f = some g := hres
    obtain rfl := Option.some.inj hfg
    rfl
  | none =>
    have hres' : mapLookup hm t.taskName = some g := hres
    show (match mapLookup hm t.taskName with
      | some g0 => ExecOutcome.invoked g0 t
      | none => ExecOutcome.droppedLog t) = ExecOutcome.invoked g t
    rw [hres']

/-- When resolution finds nothing, the task is dropped after being logged. -/
theorem executeTask_dropped {hf : Option H} {hm : List (Int × Option H)} {t : Task P}
    (hres : resolveHandler hf hm t.taskName = none) :
    executeTask hf hm t = ExecOutcome.droppedLog t := by
  cases hf with
  | some f =>
    have hfg : (some f : Option H) = none := hres
    cases hfg
  | none =>
    have hres' : mapLookup hm t.taskName = none := hres
    show (match mapLookup hm t.taskName with
      | some g0 => ExecOutcome.invoked g0 t
      | none => ExecOutcome.droppedLog t) = ExecOutcome.droppedLog t
    rw [hres']

/-- Every traced outcome of a reachable state is the verbatim result of
`executeTask` with the configured handlers on its own task. -/
theorem event_shape {n : Nat} {hf : Option H} {hm : List (Int × Option H)}
    {tasks : List (Int × P)} {s : Sys P H}
    (hreach : Reach (initSys n hf hm tasks) s) :
    ∀ e ∈ s.events, e = executeTask hf hm e.task := by
  obtain ⟨-, -, -, hlp⟩ := invAll_reach hreach
  intro e he
  have h1 := (hlp.2.2 e he).1
  obtain ⟨-, hfe, hme, -⟩ := reach_config hreach
  rw [hfe, hme] at h1
  exact h1

/-- At quiescence the traced cores are, up to permutation, exactly the
planned submissions: nothing lost, nothing duplicated. -/
theorem quiescent_perm {n : Nat} {hf : Option H} {hm : List (Int × Option H)}
    {tasks : List (Int × P)} {s : Sys P H}
    (hreach : Reach (initSys n hf hm tasks) s) (hq : Quiescent s) :
    (s.events.map evCore).Perm tasks := by
  obtain ⟨-, -, hacc, -⟩ := invAll_reach hreach
  obtain ⟨pre, hsplit, hperm⟩ := hacc
  obtain ⟨hts, hpm, hcl, -⟩ := hq
  rw [hts, List.append_nil] at hsplit
  subst hsplit
  have hacceq : accountedCores s = s.events.map evCore := by
    rw [accountedCores, hpm, hcl]
    simp
  rw [hacceq] at hperm
  exact hperm.symm

/-! Single-step worker-phase lemmas used for the stop/abort analysis. -/

/-- A worker that is mid-execution is never disturbed by one step: it is
still executing the same task afterwards, unless the step was its own
handler return, which sends it back to re-register.  In particular no stop
request, teardown action or pool-level stop ever changes or interrupts the
task being executed. -/
theorem executing_step {a : Act} {s s' : Sys P H} {w : Nat} {ws : Worker P} {t : Task P}
    (hinv : InvW s) (h : stepAct a s = some s') (hw : s.workers[w]? = some ws)
    (hph0 : ws.phase = WPhase.executing t) :
    ∃ ws', s'.workers[w]? = some ws' ∧
      (ws'.phase = WPhase.executing t ∨
        (a = Act.finishTask w ∧ ws'.phase = WPhase.toRegister)) := by
  obtain ⟨hlen, hpre, -, -, -, -⟩ := hinv
  have hwlt : w < s.workers.length := (List.getElem?_eq_some_iff.1 hw).1
  cases a with
  | run =>
    obtain ⟨hd, rfl⟩ := stepAct_run_inv h
    obtain ⟨hw0, -, -, -, -, -, -⟩ := hpre hd
    rw [pristine_phase hw0 hw] at hph0
    cases hph0
  | acceptTask =>
    obtain ⟨k, p, rest, -, -, rfl⟩ := stepAct_accept_inv h
    exact ⟨ws, hw, Or.inl hph0⟩
  | claimWorker j =>
    obtain ⟨w0, pr, t0, -, -, rfl⟩ := stepAct_claim_inv h
    exact ⟨ws, hw, Or.inl hph0⟩
  | deliverTask j =>
    obtain ⟨w0, t0, ws0, -, hw0, hph1, rfl⟩ := stepAct_deliver_inv h
    by_cases hwe : w0 = w
    · subst hwe
      rw [hw0] at hw
      obtain rfl := Option.some.inj hw
      rw [hph1] at hph0
      cases hph0
    · rw [deliverUpd_workers, List.getElem?_set_ne hwe]
      exact ⟨ws, hw, Or.inl hph0⟩
  | finishTask w0 =>
    obtain ⟨ws0, t0, hw0, hph1, rfl⟩ := stepAct_finish_inv h
    by_cases hwe : w0 = w
    · subst hwe
      rw [hw0] at hw
      obtain rfl := Option.some.inj hw
      rw [finishUpd_workers, List.getElem?_set_eq_of_lt _ hwlt]
      exact ⟨_, rfl, Or.inr ⟨rfl, rfl⟩⟩
    · rw [finishUpd_workers, List.getElem?_set_ne hwe]
      exact ⟨ws, hw, Or.inl hph0⟩
  | registerIdle w0 =>
    obtain ⟨ws0, hw0, hph1, -, rfl⟩ := stepAct_register_inv h
    by_cases hwe : w0 = w
    · subst hwe
      rw [hw0] at hw
      obtain rfl := Option.some.inj hw
      rw [hph1] at hph0
      cases hph0
    · rw [registerUpd_workers, List.getElem?_set_ne hwe]
      exact ⟨ws, hw, Or.inl hph0⟩
  | callStop =>
    obtain ⟨-, rfl⟩ := stepAct_callStop_inv h
    exact ⟨ws, hw, Or.inl hph0⟩
  | observeStop =>
    obtain ⟨-, -, -, rfl⟩ := stepAct_observe_inv h
    exact ⟨ws, hw, Or.inl hph0⟩
  | teardownStep =>
    obtain ⟨k, -, hcase⟩ := stepAct_teardown_inv h
    rcases hcase with ⟨ws0, -, hw0, rfl⟩ | ⟨-, rfl⟩
    · by_cases hwe : k = w
      · subst hwe
        rw [hw0] at hw
        obtain rfl := Option.some.inj hw
        rw [teardownWorkerUpd_workers, List.getElem?_set_eq_of_lt _ hwlt]
        exact ⟨_, rfl, Or.inl hph0⟩
      · rw [teardownWorkerUpd_workers, List.getElem?_set_ne hwe]
        exact ⟨ws, hw, Or.inl hph0⟩
    · exact ⟨ws, hw, Or.inl hph0⟩
  | workerObserveStop w0 =>
    obtain ⟨ws0, hw0, hph1, -, rfl⟩ := stepAct_workerStop_inv h
    by_cases hwe : w0 = w
    · subst hwe
      rw [hw0] at hw
      obtain rfl := Option.some.inj hw
      rw [hph1] at hph0
      cases hph0
    · rw [workerStopUpd_workers, List.getElem?_set_ne hwe]
      exact ⟨ws, hw, Or.inl hph0⟩

/-- A stopped worker stays stopped across one step, and its inbox is never
re-registered: its occurrences in the idle pool can only decrease. -/
theorem stopped_step {a : Act} {s s' : Sys P H} {w : Nat} {ws : Worker P}
    (hinv : InvW s) (h : stepAct a s = some s') (hw : s.workers[w]? = some ws)
    (hph0 : ws.phase = WPhase.stopped) :
    ∃ ws', s'.workers[w]? = some ws' ∧ ws'.phase = WPhase.stopped ∧
      s'.workerPool.count w ≤ s.workerPool.count w := by
  obtain ⟨hlen, hpre, -, -, -, -⟩ := hinv
  have hwlt : w < s.workers.length := (List.getElem?_eq_some_iff.1 hw).1
  cases a with
  | run =>
    obtain ⟨hd, rfl⟩ := stepAct_run_inv h
    obtain ⟨hw0, -, -, -, -, -, -⟩ := hpre hd
    rw [pristine_phase hw0 hw] at hph0
    cases hph0
  | acceptTask =>
    obtain ⟨k, p, rest, -, -, rfl⟩ := stepAct_accept_inv h
    exact ⟨ws, hw, hph0, Nat.le_refl _⟩
  | claimWorker j =>
    obtain ⟨w0, pr, t0, hp, -, rfl⟩ := stepAct_claim_inv h
    refine ⟨ws, hw, hph0, ?_⟩
    rw [show (claimUpd s w0 pr j t0).workerPool = pr from rfl, hp, List.count_cons]
    omega
  | deliverTask j =>
    obtain ⟨w0, t0, ws0, -, hw0, hph1, rfl⟩ := stepAct_deliver_inv h
    by_cases hwe : w0 = w
    · subst hwe
      rw [hw0] at hw
      obtain rfl := Option.some.inj hw
      rw [hph1] at hph0
      cases hph0
    · rw [deliverUpd_workers, List.getElem?_set_ne hwe]
      exact ⟨ws, hw, hph0, Nat.le_refl _⟩
  | finishTask w0 =>
    obtain ⟨ws0, t0, hw0, hph1, rfl⟩ := stepAct_finish_inv h
    by_cases hwe : w0 = w
    · subst hwe
      rw [hw0] at hw
      obtain rfl := Option.some.inj hw
      rw [hph1] at hph0
      cases hph0
    · rw [finishUpd_workers, List.getElem?_set_ne hwe]
      exact ⟨ws, hw, hph0, Nat.le_refl _⟩
  | registerIdle w0 =>
    obtain ⟨ws0, hw0, hph1, -, rfl⟩ := stepAct_register_inv h
    by_cases hwe : w0 = w
    · subst hwe
      rw [hw0] at hw
      obtain rfl := Option.some.inj hw
      rw [hph1] at hph0
      cases hph0
    · rw [registerUpd_workers, List.getElem?_set_ne hwe]
      refine ⟨ws, hw, hph0, ?_⟩
      rw [show (registerUpd s w0 ws0).workerPool = s.workerPool ++ [w0] from rfl,
        List.count_append, List.count_cons]
      have : ¬(w0 == w) = true := by simpa using hwe
      simp [this]
  | callStop =>
    obtain ⟨-, rfl⟩ := stepAct_callStop_inv h
    exact ⟨ws, hw, hph0, Nat.le_refl _⟩
  | observeStop =>
    obtain ⟨-, -, -, rfl⟩ := stepAct_observe_inv h
    exact ⟨ws, hw, hph0, Nat.le_refl _⟩
  | teardownStep =>
    obtain ⟨k, -, hcase⟩ := stepAct_teardown_inv h
    rcases hcase with ⟨ws0, -, hw0, rfl⟩ | ⟨-, rfl⟩
    · by_cases hwe : k = w
      · subst hwe
        rw [hw0] at hw
        obtain rfl := Option.some.inj hw
        rw [teardownWorkerUpd_workers, List.getElem?_set_eq_of_lt _ hwlt]
        exact ⟨_, rfl, hph0, Nat.le_refl _⟩
      · rw [teardownWorkerUpd_workers, List.getElem?_set_ne hwe]
        exact ⟨ws, hw, hph0, Nat.le_refl _⟩
    · exact ⟨ws, hw, hph0, Nat.le_refl _⟩
  | workerObserveStop w0 =>
    obtain ⟨ws0, hw0, hph1, -, rfl⟩ := stepAct_workerStop_inv h
    by_cases hwe : w0 = w
    · subst hwe
      rw [hw0] at hw
      obtain rfl := Option.some.inj hw
      rw [hph1] at hph0
      cases hph0
    · rw [workerStopUpd_workers, List.getElem?_set_ne hwe]
      exact ⟨ws, hw, hph0, Nat.le_refl _⟩

/-- A stopped worker of a reachable state stays stopped in every future
state, and its inbox is never added back to the idle pool. -/
theorem stopped_reach {n : Nat} {hf : Option H} {hm : List (Int × Option H)}
    {tasks : List (Int × P)} {s : Sys P H} {w : Nat} {ws : Worker P}
    (hreach : Reach (initSys n hf hm tasks) s)
    (hw : s.workers[w]? = some ws) (hph0 : ws.phase = WPhase.stopped) :
    ∀ s₂, Reach s s₂ → ∃ ws₂, s₂.workers[w]? = some ws₂ ∧ ws₂.phase = WPhase.stopped ∧
      s₂.workerPool.count w ≤ s.workerPool.count w := by
  intro s₂ h₂
  induction h₂ with
  | refl => exact ⟨ws, hw, hph0, Nat.le_refl _⟩
  | tail hab hbc ih =>
    obtain ⟨wsb, hwb, hphb, hcb⟩ := ih
    obtain ⟨a, ha⟩ := hbc
    have hinvb := (invAll_reach (reach_trans hreach hab)).1
    obtain ⟨wsc, hwc, hphc, hcc⟩ := stopped_step hinvb ha hwb hphb
    exact ⟨wsc, hwc, hphc, Nat.le_trans hcc hcb⟩

/-! The claims. -/

/-- C2: when a catch-all handler is installed (`SetHandlerFn` called with a
non-nil handler), it is invoked on every executed task and the per-kind
handler map is never consulted: the outcome of `executeTask` is
`invoked f t` whatever the map contains — including when the map holds an
entry `g` for the very kind of the task; only the catch-all runs. -/
theorem c2_catchall_precedence (s : Sys P H) (f : H) (m m' : List (Int × Option H))
    (t : Task P) (g : H) :
    (SetHandlerFn s (some f)).handlerFn = some f ∧
    executeTask (some f) m t = ExecOutcome.invoked f t ∧
    executeTask (some f) m t = executeTask (some f) m' t ∧
    executeTask (some f) ((t.taskName, some g) :: m) t = ExecOutcome.invoked f t :=
  ⟨rfl, rfl, rfl, rfl⟩

/-- C3: a task whose kind has no handler-map entry and with no catch-all
installed is dropped after being logged: `executeTask` returns the
`droppedLog` outcome (a value, not an error — nothing is raised to the
caller and nothing is retried), no handler is invoked, and the executing
worker's lifecycle is unaffected — its handler-return step is enabled
exactly as for any task, sending it back to re-register so the pool keeps
processing subsequent tasks. -/
theorem c3_unresolved_nonfatal (hm : List (Int × Option H)) (t : Task P)
    (hres : resolveHandler (none : Option H) hm t.taskName = none) :
    executeTask none hm t = ExecOutcome.droppedLog t ∧
    (∀ (g : H) (t' : Task P), executeTask none hm t ≠ ExecOutcome.invoked g t') ∧
    (∀ (s : Sys P H) (w : Nat) (ws : Worker P) (t0 : Task P),
      s.workers[w]? = some ws → ws.phase = WPhase.executing t0 →
      stepAct (Act.finishTask w) s = some (finishUpd s w ws) ∧
      (finishUpd s w ws).workers[w]? = some { ws with phase := WPhase.toRegister }) := by
  refine ⟨executeTask_dropped hres, ?_, ?_⟩
  · intro g t' habs
    rw [executeTask_dropped hres] at habs
    cases habs
  · intro s w ws t0 hw hph
    have hwlt : w < s.workers.length := (List.getElem?_eq_some_iff.1 hw).1
    refine ⟨finish_enabled hw hph, ?_⟩
    rw [finishUpd_workers, List.getElem?_set_eq_of_lt _ hwlt]

theorem c3_witness :
    resolveHandler (none : Option Unit) ([] : List (Int × Option Unit)) ((7 : Int)) = none ∧
    executeTask (none : Option Unit) ([] : List (Int × Option Unit)) (mkTask 7 (0 : Nat)) =
      ExecOutcome.droppedLog (mkTask 7 0) :=
  ⟨by decide, (c3_unresolved_nonfatal [] (mkTask 7 (0 : Nat)) (by decide)).1⟩

/-- C5: `Stop` only issues the stop request of the two-phase handshake and
returns: it is a total function whose result differs from its argument in
the `requested` flag alone — no worker is touched or awaited (an executing
worker is still executing), the handshake is not acknowledged, the
teardown goroutine is not run by it (it is spawned later by the dispatch
loop), and nothing in flight is drained.  When the request flag was not
already set, this is exactly the `callStop` step of the semantics. -/
theorem c5_stop_fire_and_forget (s : Sys P H) :
    (Stop s).stopChannel.requested = true ∧
    (Stop s).stopChannel.acked = s.stopChannel.acked ∧
    (Stop s).stopChannel.observed = s.stopChannel.observed ∧
    (Stop s).workers = s.workers ∧
    (Stop s).teardown = s.teardown ∧
    (Stop s).workerPool = s.workerPool ∧
    (Stop s).pendingMatch = s.pendingMatch ∧
    (Stop s).claimed = s.claimed ∧
    (Stop s).events = s.events ∧
    (Stop s).toSubmit = s.toSubmit ∧
    (s.stopChannel.requested = false → stepAct Act.callStop s = some (Stop s)) := by
  refine ⟨rfl, rfl, rfl, rfl, rfl, rfl, rfl, rfl, rfl, rfl, ?_⟩
  intro hr
  simp [stepAct, hr, callStopUpd]

theorem c5_witness :
    exRun1.stopChannel.requested = false ∧
    stepAct Act.callStop exRun1 = some (Stop exRun1) :=
  ⟨by decide, (c5_stop_fire_and_forget exRun1).2.2.2.2.2.2.2.2.2.2 (by decide)⟩

/-- C10: calling `SetHandlerFn` with the nil handler leaves the pool
behaving as if no catch-all were installed: the field is `none`, exactly
as `New` leaves it, resolution falls through to the per-kind map (an entry
found there is the handler invoked; no entry means the drop path), and any
resolved handler must come from the map — resolution tests the catch-all
for non-nil, not for having been set. -/
theorem c10_nil_catchall (s : Sys P H) (f : H) (t : Task P) :
    (SetHandlerFn s none).handlerFn = none ∧
    (SetHandlerFn s none).handlerFn = (New s.maxWorkers : Sys P H).handlerFn ∧
    (SetHandlerFn (SetHandlerFn s (some f)) none).handlerFn = none ∧
    (∀ g, mapLookup s.handlerMap t.taskName = some g →
      executeTask (SetHandlerFn s none).handlerFn s.handlerMap t =
        ExecOutcome.invoked g t) ∧
    (mapLookup s.handlerMap t.taskName = none →
      executeTask (SetHandlerFn s none).handlerFn s.handlerMap t =
        ExecOutcome.droppedLog t) ∧
    (∀ g, resolveHandler (SetHandlerFn s none).handlerFn s.handlerMap t.taskName = some g →
      mapLookup s.handlerMap t.taskName = some g) := by
  refine ⟨rfl, rfl, rfl, ?_, ?_, ?_⟩
  · intro g hg
    exact executeTask_invoked hg
  · intro hg
    exact executeTask_dropped hg
  · intro g hg
    exact hg

theorem c10_witness :
    mapLookup [((0 : Int), some ())] (0 : Int) = some () ∧
    executeTask (SetHandlerFn exInit1 none).handlerFn exInit1.handlerMap (mkTask 0 (5 : Nat)) =
      ExecOutcome.invoked () (mkTask 0 5) :=
  ⟨by decide, (c10_nil_catchall exInit1 () (mkTask 0 (5 : Nat))).2.2.2.1 () (by decide)⟩

/-- C8: `New maxWorkers` yields a controller with no started worker (the
worker slice is `maxWorkers` zero-value workers), an empty handler map, no
catch-all, an empty idle registry, and the dispatch loop not running;
workers change from the unstarted state only through `Run`; a pending
`QueueTask` call completes only in the very step in which the dispatch
loop's receive accepts the task (the zero-capacity synchronous handoff),
which also spawns the task's matching goroutine; and the idle registry, of
capacity exactly `maxWorkers`, accepts a new entry only when strictly
below capacity. -/
theorem c8_new_unstarted (n : Nat) :
    (New n : Sys P H).workers = List.replicate n workerZero ∧
    (New n : Sys P H).workers.length = n ∧
    (New n : Sys P H).handlerMap = [] ∧
    (New n : Sys P H).handlerFn = none ∧
    (New n : Sys P H).dispatcherRunning = false ∧
    (New n : Sys P H).workerPool = [] ∧
    (∀ (hf : Option H) (hm : List (Int × Option H)) (tasks : List (Int × P)) (s : Sys P H),
      Reach (initSys n hf hm tasks) s → s.dispatcherRunning = false →
      s.workers = List.replicate n workerZero) ∧
    (∀ (a : Act) (s s' : Sys P H), stepAct a s = some s' → s'.toSubmit ≠ s.toSubmit →
      a = Act.acceptTask ∧ s.dispatcherRunning = true ∧
      ∃ k p, s.toSubmit = (k, p) :: s'.toSubmit ∧
        s'.pendingMatch = s.pendingMatch ++ [mkTask k p]) ∧
    (∀ (a : Act) (s s' : Sys P H), stepAct a s = some s' →
      s.workerPool.length < s'.workerPool.length → s.workerPool.length < s.maxWorkers) := by
  refine ⟨rfl, by simp [New], rfl, rfl, rfl, rfl, ?_, ?_, ?_⟩
  · intro hf hm tasks s hreach hnr
    have hinvW := (invAll_reach hreach).1
    have hmax : s.maxWorkers = n := (reach_config hreach).1
    have := (hinvW.2.1 hnr).1
    rw [hmax] at this
    exact this
  · intro a s s' hstep hne
    cases a with
    | acceptTask =>
      obtain ⟨k, p, rest, hd, hts, rfl⟩ := stepAct_accept_inv hstep
      exact ⟨rfl, hd, k, p, hts, rfl⟩
    | run =>
      obtain ⟨-, rfl⟩ := stepAct_run_inv hstep
      exact absurd rfl hne
    | claimWorker j =>
      obtain ⟨w, pr, t, -, -, rfl⟩ := stepAct_claim_inv hstep
      exact absurd rfl hne
    | deliverTask j =>
      obtain ⟨w, t, ws, -, -, -, rfl⟩ := stepAct_deliver_inv hstep
      exact absurd rfl hne
    | finishTask w =>
      obtain ⟨ws, t, -, -, rfl⟩ := stepAct_finish_inv hstep
      exact absurd rfl hne
    | registerIdle w =>
      obtain ⟨ws, -, -, -, rfl⟩ := stepAct_register_inv hstep
      exact absurd rfl hne
    | callStop =>
      obtain ⟨-, rfl⟩ := stepAct_callStop_inv hstep
      exact absurd rfl hne
    | observeStop =>
      obtain ⟨-, -, -, rfl⟩ := stepAct_observe_inv hstep
      exact absurd rfl hne
    | teardownStep =>
      obtain ⟨k, -, hcase⟩ := stepAct_teardown_inv hstep
      rcases hcase with ⟨ws, -, -, rfl⟩ | ⟨-, rfl⟩ <;> exact absurd rfl hne
    | workerObserveStop w =>
      obtain ⟨ws, -, -, -, rfl⟩ := stepAct_workerStop_inv hstep
      exact absurd rfl hne
  · intro a s s' hstep hgrow
    cases a with
    | registerIdle w =>
      obtain ⟨ws, -, -, hlen, rfl⟩ := stepAct_register_inv hstep
      exact hlen
    | claimWorker j =>
      obtain ⟨w, pr, t, hp, -, rfl⟩ := stepAct_claim_inv hstep
      rw [show (claimUpd s w pr j t).workerPool = pr from rfl, hp] at hgrow
      simp at hgrow
    | run =>
      obtain ⟨-, rfl⟩ := stepAct_run_inv hstep
      exact absurd hgrow (Nat.lt_irrefl _)
    | acceptTask =>
      obtain ⟨k, p, rest, -, -, rfl⟩ := stepAct_accept_inv hstep
      exact absurd hgrow (Nat.lt_irrefl _)
    | deliverTask j =>
      obtain ⟨w, t, ws, -, -, -, rfl⟩ := stepAct_deliver_inv hstep
      exact absurd hgrow (Nat.lt_irrefl _)
    | finishTask w =>
      obtain ⟨ws, t, -, -, rfl⟩ := stepAct_finish_inv hstep
      exact absurd hgrow (Nat.lt_irrefl _)
    | callStop =>
      obtain ⟨-, rfl⟩ := stepAct_callStop_inv hstep
      exact absurd hgrow (Nat.lt_irrefl _)
    | observeStop =>
      obtain ⟨-, -, -, rfl⟩ := stepAct_observe_inv hstep
      exact absurd hgrow (Nat.lt_irrefl _)
    | teardownStep =>
      obtain ⟨k, -, hcase⟩ := stepAct_teardown_inv hstep
      rcases hcase with ⟨ws, -, -, rfl⟩ | ⟨-, rfl⟩ <;> exact absurd hgrow (Nat.lt_irrefl _)
    | workerObserveStop w =>
      obtain ⟨ws, -, -, -, rfl⟩ := stepAct_workerStop_inv hstep
      exact absurd hgrow (Nat.lt_irrefl _)

theorem c8_witness :
    stepAct Act.acceptTask exRun1 = some (acceptUpd exRun1 0 5 []) ∧
    (Act.acceptTask = Act.acceptTask ∧ exRun1.dispatcherRunning = true ∧
      ∃ k p, exRun1.toSubmit = (k, p) :: (acceptUpd exRun1 0 5 []).toSubmit ∧
        (acceptUpd exRun1 0 5 []).pendingMatch = exRun1.pendingMatch ++ [mkTask k p]) ∧
    exInit1.workers = List.replicate 1 workerZero := by
  have h7 := (c8_new_unstarted (P := Nat) (H := Unit) 1).2.2.2.2.2.2.1
  have h8 := (c8_new_unstarted (P := Nat) (H := Unit) 1).2.2.2.2.2.2.2.1
  refine ⟨by decide, h8 Act.acceptTask exRun1 (acceptUpd exRun1 0 5 []) (by decide) (by decide),
    ?_⟩
  exact h7 none [(0, some ())] [(0, 5)] exInit1 Relation.ReflTransGen.refl (by decide)

/-- C4: a worker that has received a task (is in the executing phase) is
not interrupted by a stop request: across any single step it is still
executing the very same task, except for its own handler-return step,
which completes the invocation and sends it back to re-register — so in
particular the worker cannot terminate before the handler completes.  And
once a worker has observed its stop request (is stopped) it has
acknowledged its handshake, and in every future state it is still stopped
and its inbox has never been re-registered into the idle pool. -/
theorem c4_stop_not_abortive {n : Nat} {hf : Option H} {hm : List (Int × Option H)}
    {tasks : List (Int × P)} {s s' : Sys P H} {a : Act} {w : Nat} {ws : Worker P}
    (hreach : Reach (initSys n hf hm tasks) s)
    (hstep : stepAct a s = some s')
    (hw : s.workers[w]? = some ws) :
    (∀ t, ws.phase = WPhase.executing t →
      ∃ ws', s'.workers[w]? = some ws' ∧
        (ws'.phase = WPhase.executing t ∨
          (a = Act.finishTask w ∧ ws'.phase = WPhase.toRegister))) ∧
    (ws.phase = WPhase.stopped →
      ws.stopChannel.requested = true ∧ ws.stopChannel.acked = true ∧
      ∀ s₂, Reach s s₂ → ∃ ws₂, s₂.workers[w]? = some ws₂ ∧
        ws₂.phase = WPhase.stopped ∧
        s₂.workerPool.count w ≤ s.workerPool.count w) := by
  have hinv := invAll_reach hreach
  constructor
  · intro t hph0
    exact executing_step hinv.1 hstep hw hph0
  · intro hph0
    have hsa := hinv.2.1.2.2.2 ws (mem_of_getElemQ hw) hph0
    exact ⟨hsa.1, hsa.2, stopped_reach hreach hw hph0⟩

theorem c4_witness :
    ∃ ws', exDone1.workers[0]? = some ws' ∧
      (ws'.phase = WPhase.executing exTask1 ∨
        (Act.finishTask 0 = Act.finishTask 0 ∧ ws'.phase = WPhase.toRegister)) := by
  have h := @c4_stop_not_abortive Nat Unit 1 none [(0, some ())] [(0, 5)] exExec1 exDone1
    (Act.finishTask 0) 0 exWorker1
    (reach_of_runActs
      [Act.run, Act.registerIdle 0, Act.acceptTask, Act.claimWorker 0, Act.deliverTask 0]
      exInit1 exExec1 (by decide))
    (by decide) (by decide)
  exact h.1 exTask1 (by decide)

/-- C9: a task travels from `QueueTask` to its handler with kind and
payload untouched: while in a matching goroutine (waiting or claiming) it
still carries exactly the zero logging identity `QueueTask` built it with,
and its (kind, payload) pair is one of the submitted pairs; and the only
step that produces a handler invocation takes a claimed task `t` —
identity still zero — and hands the handler `stamp s ws t`, which differs
from `t` in the embedded logging-identity fields alone (name set to
"Task", a fresh id, the worker's identifier as prefix), with `taskName`
and `payload` verbatim those of `t`. -/
theorem c9_task_frame {n : Nat} {hf : Option H} {hm : List (Int × Option H)}
    {tasks : List (Int × P)} {s s' : Sys P H} {a : Act}
    (hreach : Reach (initSys n hf hm tasks) s) (hstep : stepAct a s = some s') :
    (∀ t ∈ s.pendingMatch, t.lp = LogProvider.zero ∧ (t.taskName, t.payload) ∈ tasks) ∧
    (∀ wt ∈ s.claimed, wt.2.lp = LogProvider.zero ∧
      (wt.2.taskName, wt.2.payload) ∈ tasks) ∧
    (s'.events = s.events ∨
      ∃ (j w : Nat) (ws : Worker P) (t : Task P),
        s.claimed[j]? = some (w, t) ∧ s.workers[w]? = some ws ∧
        t.lp = LogProvider.zero ∧
        s'.events = s.events ++ [executeTask hf hm (stamp s ws t)] ∧
        (stamp s ws t).taskName = t.taskName ∧
        (stamp s ws t).payload = t.payload ∧
        (stamp s ws t).lp =
          { name := "Task", id := s.nextId, pfx := ws.lp.identifier }) := by
  obtain ⟨-, -, hacc, hlp⟩ := invAll_reach hreach
  obtain ⟨pre, hsplit, hperm⟩ := hacc
  have hmemtasks : ∀ c ∈ accountedCores s, c ∈ tasks := by
    intro c hc
    have hcpre : c ∈ pre := hperm.mem_iff.2 hc
    rw [hsplit]
    exact List.mem_append_left _ hcpre
  refine ⟨?_, ?_, ?_⟩
  · intro t ht
    refine ⟨hlp.1 t ht, hmemtasks _ ?_⟩
    exact List.mem_append_left _ (List.mem_append_left _ (List.mem_map_of_mem taskCore ht))
  · intro wt hwt
    refine ⟨hlp.2.1 wt hwt, hmemtasks _ ?_⟩
    exact List.mem_append_left _
      (List.mem_append_right _ (List.mem_map_of_mem (fun wt => taskCore wt.2) hwt))
  · have h1 : s.handlerFn = hf := (reach_config hreach).2.1
    have h2 : s.handlerMap = hm := (reach_config hreach).2.2.1
    cases a with
    | run =>
      obtain ⟨-, rfl⟩ := stepAct_run_inv hstep
      exact Or.inl rfl
    | acceptTask =>
      obtain ⟨k, p, rest, -, -, rfl⟩ := stepAct_accept_inv hstep
      exact Or.inl rfl
    | claimWorker j =>
      obtain ⟨w, pr, t, -, -, rfl⟩ := stepAct_claim_inv hstep
      exact Or.inl rfl
    | deliverTask j =>
      obtain ⟨w, t, ws, hc, hw, -, rfl⟩ := stepAct_deliver_inv hstep
      refine Or.inr ⟨j, w, ws, t, hc, hw, hlp.2.1 (w, t) (mem_of_getElemQ hc), ?_, rfl, rfl, rfl⟩
      rw [← h1, ← h2]
      rfl
    | finishTask w =>
      obtain ⟨ws, t, -, -, rfl⟩ := stepAct_finish_inv hstep
      exact Or.inl rfl
    | registerIdle w =>
      obtain ⟨ws, -, -, -, rfl⟩ := stepAct_register_inv hstep
      exact Or.inl rfl
    | callStop =>
      obtain ⟨-, rfl⟩ := stepAct_callStop_inv hstep
      exact Or.inl rfl
    | observeStop =>
      obtain ⟨-, -, -, rfl⟩ := stepAct_observe_inv hstep
      exact Or.inl rfl
    | teardownStep =>
      obtain ⟨k, -, hcase⟩ := stepAct_teardown_inv hstep
      rcases hcase with ⟨ws, -, -, rfl⟩ | ⟨-, rfl⟩ <;> exact Or.inl rfl
    | workerObserveStop w =>
      obtain ⟨ws, -, -, -, rfl⟩ := stepAct_workerStop_inv hstep
      exact Or.inl rfl

theorem c9_witness :
    (∀ t ∈ exMid1.pendingMatch,
      t.lp = LogProvider.zero ∧ (t.taskName, t.payload) ∈ [((0 : Int), (5 : Nat))]) ∧
    (∀ wt ∈ exMid1.claimed,
      wt.2.lp = LogProvider.zero ∧ (wt.2.taskName, wt.2.payload) ∈ [((0 : Int), (5 : Nat))]) := by
  have h := @c9_task_frame Nat Unit 1 none [(0, some ())] [(0, 5)] exMid1 exExec1
    (Act.deliverTask 0)
    (reach_of_runActs [Act.run, Act.registerIdle 0, Act.acceptTask, Act.claimWorker 0]
      exInit1 exMid1 (by decide))
    (by decide)
  exact ⟨h.1, h.2.1⟩

/-- The state `exLost1` is stuck: its one task was accepted and claimed
before the stop, its worker terminated, and no action is enabled, so the
claimed task can never be delivered. -/
theorem exLost1_stuck : ∀ a, stepAct a exLost1 = none := by
  intro a
  cases a with
  | run => decide
  | acceptTask => decide
  | claimWorker j => rfl
  | deliverTask j =>
    cases j with
    | zero => decide
    | succ k => rfl
  | finishTask w =>
    cases w with
    | zero => decide
    | succ k => rfl
  | registerIdle w =>
    cases w with
    | zero => decide
    | succ k => rfl
  | callStop => decide
  | observeStop => decide
  | teardownStep => decide
  | workerObserveStop w =>
    cases w with
    | zero => decide
    | succ k => rfl

/-- C1 (amended): in every interleaving, the traced outcomes are a
sub-multiset of the planned submissions — no task's handler runs twice and
nothing not submitted is ever executed; every traced outcome whose kind
resolves to a handler is precisely one invocation of that handler; in any
state with no outstanding work the traced outcomes are exactly the
submissions, each exactly once; and a running, stop-free pool with at
least one worker and outstanding work always has an enabled step, so
stop-free executions can always progress to quiescence.  (The original
unconditional exactly-once fails when `Stop()` races delivery — see the
counterexample.) -/
theorem c1_exactly_once_amended {n : Nat} {hf : Option H} {hm : List (Int × Option H)}
    {tasks : List (Int × P)} {s : Sys P H}
    (hreach : Reach (initSys n hf hm tasks) s) :
    ((s.events.map evCore : List (Int × P)) : Multiset (Int × P)) ≤
      (tasks : Multiset (Int × P)) ∧
    (Quiescent s →
      ((s.events.map evCore : List (Int × P)) : Multiset (Int × P)) =
        (tasks : Multiset (Int × P))) ∧
    (∀ e ∈ s.events, ∀ g : H, resolveHandler hf hm e.task.taskName = some g →
      e = ExecOutcome.invoked g e.task) ∧
    (0 < n → s.dispatcherRunning = true → s.stopChannel.requested = false →
      ¬Quiescent s → ∃ s', StepR s s') := by
  obtain ⟨-, -, hacc, -⟩ := invAll_reach hreach
  obtain ⟨pre, hsplit, hperm⟩ := hacc
  refine ⟨?_, ?_, ?_, ?_⟩
  · have h1 : ((s.events.map evCore : List (Int × P)) : Multiset (Int × P)) ≤
        ((accountedCores s : List (Int × P)) : Multiset (Int × P)) := by
      rw [accountedCores, ← Multiset.coe_add]
      exact Multiset.le_add_left _ _
    have h2 : ((accountedCores s : List (Int × P)) : Multiset (Int × P)) =
        ((pre : List (Int × P)) : Multiset (Int × P)) :=
      Multiset.coe_eq_coe.2 hperm.symm
    have h3 : ((pre : List (Int × P)) : Multiset (Int × P)) ≤
        (tasks : Multiset (Int × P)) := by
      rw [hsplit, ← Multiset.coe_add]
      exact Multiset.le_add_right _ _
    exact le_trans (h2 ▸ h1) h3
  · intro hq
    exact Multiset.coe_eq_coe.2 (quiescent_perm hreach hq)
  · intro e he g hres
    exact (event_shape hreach e he).trans (executeTask_invoked hres)
  · intro hn hrun hstop hq
    have hmax : s.maxWorkers = n := (reach_config hreach).1
    exact progress hreach (by omega) hrun hstop hq

/-- C1 counterexample: a task submitted to a running single-worker pool
and accepted by the dispatch loop before `Stop()` is called — with a
matching handler registered for its kind — can be lost without its handler
ever being invoked: the matching goroutine claims the worker's inbox, the
stop request wins the worker's `select` race, the worker terminates, and
the delivery blocks forever.  No continuation of the execution ever
produces an invocation. -/
theorem c1_counterexample :
    Reach exInit1 exMid1 ∧
    exMid1.stopChannel.requested = false ∧
    exMid1.toSubmit = [] ∧
    resolveHandler (none : Option Unit) [((0 : Int), some ())] 0 = some () ∧
    Reach exMid1 exLost1 ∧
    exLost1.stopChannel.requested = true ∧
    exLost1.events = [] ∧
    (∀ s', Reach exLost1 s' → s'.events = []) := by
  refine ⟨reach_of_runActs [Act.run, Act.registerIdle 0, Act.acceptTask, Act.claimWorker 0]
      exInit1 exMid1 (by decide),
    by decide, by decide, by decide,
    reach_of_runActs [Act.callStop, Act.observeStop, Act.teardownStep,
      Act.workerObserveStop 0, Act.teardownStep] exMid1 exLost1 (by decide),
    by decide, by decide, ?_⟩
  intro s' h
  rw [reach_of_stuck exLost1_stuck h]
  decide

theorem c1_witness :
    Quiescent exDone1 ∧
    ((exDone1.events.map evCore : List (Int × Nat)) : Multiset (Int × Nat)) =
      (([((0 : Int), (5 : Nat))] : List (Int × Nat)) : Multiset (Int × Nat)) := by
  have hq : Quiescent exDone1 := by
    refine ⟨by decide, by decide, by decide, by decide⟩
  have h := @c1_exactly_once_amended Nat Unit 1 none [(0, some ())] [(0, 5)] exDone1
    (reach_of_runActs [Act.run, Act.registerIdle 0, Act.acceptTask, Act.claimWorker 0,
      Act.deliverTask 0, Act.finishTask 0] exInit1 exDone1 (by decide))
  exact ⟨hq, h.2.1 hq⟩

/-- Under serialized dispatch every step preserves the in-order FIFO
accounting: the accepted prefix of the submissions is exactly the traced
cores followed by the (at most one) in-flight core. -/
theorem invFifo_stepSerial {tasks : List (Int × P)} {s s' : Sys P H}
    (hser : SerialOK s) (hstep : StepR s s') (hser' : SerialOK s')
    (inv : InvFifo tasks s) : InvFifo tasks s' := by
  obtain ⟨a, ha⟩ := hstep
  obtain ⟨pre, hsplit, hpre⟩ := inv
  cases a with
  | run =>
    obtain ⟨-, rfl⟩ := stepAct_run_inv ha
    exact ⟨pre, hsplit, hpre⟩
  | acceptTask =>
    obtain ⟨k, p, rest, -, hts, rfl⟩ := stepAct_accept_inv ha
    have h1 := hser'
    simp [SerialOK, acceptUpd] at h1
    have hpm0 : s.pendingMatch = [] := List.length_eq_zero.1 (by omega)
    have hcl0 : s.claimed = [] := List.length_eq_zero.1 (by omega)
    refine ⟨pre ++ [(k, p)], ?_, ?_⟩
    · rw [hsplit, hts]
      simp [acceptUpd]
    · rw [hpre, hpm0, hcl0]
      simp [acceptUpd, hpm0, hcl0, taskCore, mkTask]
  | claimWorker j =>
    obtain ⟨w, pr, t, hp, hm, rfl⟩ := stepAct_claim_inv ha
    have hjlt : j < s.pendingMatch.length := (List.getElem?_eq_some_iff.1 hm).1
    have h1 := hser
    simp [SerialOK] at h1
    have hpm1 : s.pendingMatch.length = 1 := by omega
    have hcl0 : s.claimed = [] := List.length_eq_zero.1 (by omega)
    have hj0 : j = 0 := by omega
    subst hj0
    obtain ⟨t0, hpmeq⟩ := List.length_eq_one.1 hpm1
    have ht0 : t0 = t := by
      rw [hpmeq] at hm
      simpa using hm
    subst ht0
    refine ⟨pre, hsplit, ?_⟩
    rw [hpre, hpmeq, hcl0]
    simp [claimUpd, hpmeq, hcl0]
  | deliverTask j =>
    obtain ⟨w, t, ws, hc, hw, hph1, rfl⟩ := stepAct_deliver_inv ha
    have hjlt : j < s.claimed.length := (List.getElem?_eq_some_iff.1 hc).1
    have h1 := hser
    simp [SerialOK] at h1
    have hcl1 : s.claimed.length = 1 := by omega
    have hpm0 : s.pendingMatch = [] := List.length_eq_zero.1 (by omega)
    have hj0 : j = 0 := by omega
    subst hj0
    obtain ⟨wt0, hcleq⟩ := List.length_eq_one.1 hcl1
    have hwt0 : wt0 = (w, t) := by
      rw [hcleq] at hc
      simpa using hc
    subst hwt0
    refine ⟨pre, hsplit, ?_⟩
    rw [hpre, hcleq, hpm0]
    simp [deliverUpd, hcleq, hpm0, evCore_executeTask, taskCore_stamp]
  | finishTask w =>
    obtain ⟨ws, t, -, -, rfl⟩ := stepAct_finish_inv ha
    exact ⟨pre, hsplit, hpre⟩
  | registerIdle w =>
    obtain ⟨ws, -, -, -, rfl⟩ := stepAct_register_inv ha
    exact ⟨pre, hsplit, hpre⟩
  | callStop =>
    obtain ⟨-, rfl⟩ := stepAct_callStop_inv ha
    exact ⟨pre, hsplit, hpre⟩
  | observeStop =>
    obtain ⟨-, -, -, rfl⟩ := stepAct_observe_inv ha
    exact ⟨pre, hsplit, hpre⟩
  | teardownStep =>
    obtain ⟨k, -, hcase⟩ := stepAct_teardown_inv ha
    rcases hcase with ⟨ws, -, -, rfl⟩ | ⟨-, rfl⟩ <;> exact ⟨pre, hsplit, hpre⟩
  | workerObserveStop w =>
    obtain ⟨ws, -, -, -, rfl⟩ := stepAct_workerStop_inv ha
    exact ⟨pre, hsplit, hpre⟩

/-- C6 (amended): with `maxWorkers = 1`, in every execution in which at
most one task at a time sits between queue acceptance and handler
invocation (serialized dispatch — the regime the spec's "only one
contender" reasoning assumes), handler invocations occur exactly in
submission order: at every point the traced cores, followed by the at most
one in-flight core and the not-yet-accepted submissions, are exactly the
submission sequence.  (Without that restriction two matching goroutines
may race for the single idle inbox and invert the order — see the
counterexample.) -/
theorem c6_fifo_serialized {hf : Option H} {hm : List (Int × Option H)}
    {tasks : List (Int × P)} {s : Sys P H}
    (hreach : ReachSerial (initSys 1 hf hm tasks) s) :
    tasks = (s.events.map evCore ++ s.pendingMatch.map taskCore ++
      s.claimed.map (fun wt => taskCore wt.2)) ++ s.toSubmit ∧
    s.pendingMatch.length + s.claimed.length ≤ 1 := by
  have key : InvFifo tasks s ∧ SerialOK s := by
    induction hreach with
    | refl => exact ⟨⟨[], rfl, rfl⟩, by simp [SerialOK, initSys, New]⟩
    | tail hab hbc ih => exact ⟨invFifo_stepSerial ih.2 hbc.1 hbc.2 ih.1, hbc.2⟩
  obtain ⟨⟨pre, hsplit, hpre⟩, hserk⟩ := key
  constructor
  · rw [hsplit, hpre]
  · exact hserk

/-- C6 counterexample: a single-worker pool, tasks of kinds 0 then 1
submitted in that order, both with handlers; the dispatch loop accepts
both before either matching goroutine claims the single idle inbox, the
second matching goroutine wins the race, and the completed execution
invokes the handlers in the order task 2, task 1 — not submission
order. -/
theorem c6_counterexample :
    exInit6.maxWorkers = 1 ∧
    exInit6.toSubmit = [((0 : Int), (10 : Nat)), (1, 20)] ∧
    Reach exInit6 exSwap6 ∧
    exSwap6.toSubmit = [] ∧ exSwap6.pendingMatch = [] ∧ exSwap6.claimed = [] ∧
    exSwap6.events.map evCore = [((1 : Int), (20 : Nat)), (0, 10)] :=
  ⟨by decide, by decide,
    reach_of_runActs
      [Act.run, Act.registerIdle 0, Act.acceptTask, Act.acceptTask, Act.claimWorker 1,
        Act.deliverTask 0, Act.finishTask 0, Act.registerIdle 0, Act.claimWorker 0,
        Act.deliverTask 0]
      exInit6 exSwap6 (by decide),
    by decide, by decide, by decide, by decide⟩

theorem c6_witness :
    [((0 : Int), (10 : Nat)), (1, 20)] =
      (exSer6.events.map evCore ++ exSer6.pendingMatch.map taskCore ++
        exSer6.claimed.map (fun wt => taskCore wt.2)) ++ exSer6.toSubmit := by
  have h := @c6_fifo_serialized Nat Unit none [((0 : Int), some ()), (1, some ())]
    [((0 : Int), (10 : Nat)), (1, 20)] exSer6
    (reachSerial_of_runActsChk
      [Act.run, Act.registerIdle 0, Act.acceptTask, Act.claimWorker 0, Act.deliverTask 0,
        Act.finishTask 0, Act.registerIdle 0, Act.acceptTask, Act.claimWorker 0,
        Act.deliverTask 0]
      exInit6 exSer6 (by decide))
  exact h.1

/-- C7 (amended): in every reachable state the idle registry holds at most
`workerCount` entries — it is duplicate-free and every entry is the index
of one of the `workerCount` workers; and as long as no stop has been
requested, an entry for a worker's inbox is present exactly when that
worker is idle in its `select` and its inbox is unclaimed by any matching
goroutine.  (After a stop request the "entry present iff idle and willing"
reading fails: a stopped worker's entry can linger — see the
counterexample.) -/
theorem c7_registry_bounded {n : Nat} {hf : Option H} {hm : List (Int × Option H)}
    {tasks : List (Int × P)} {s : Sys P H}
    (hreach : Reach (initSys n hf hm tasks) s) :
    s.workerPool.length ≤ n ∧
    s.workerPool.Nodup ∧
    (∀ w ∈ s.workerPool, w < n) ∧
    (s.stopChannel.requested = false →
      ∀ w : Nat, w ∈ s.workerPool ↔
        ∃ ws, s.workers[w]? = some ws ∧ ws.phase = WPhase.selectWait ∧
          w ∉ s.claimed.map Prod.fst) := by
  obtain ⟨⟨hlen, -, -, hmem, hcnt, hph⟩, ⟨hor, -, hwsr, -⟩, -, -⟩ := invAll_reach hreach
  have hmax : s.maxWorkers = n := (reach_config hreach).1
  have hpoolcnt : ∀ w, s.workerPool.count w ≤ 1 := by
    intro w
    have h0 := hcnt w
    rw [poolClaim, List.count_append] at h0
    omega
  have hnodup : s.workerPool.Nodup := List.nodup_iff_count_le_one.2 hpoolcnt
  have hmem' : ∀ w ∈ s.workerPool, w < n := by
    intro w hw
    rw [← hmax]
    exact hmem w (List.mem_append_left _ hw)
  refine ⟨?_, hnodup, hmem', ?_⟩
  · calc s.workerPool.length = s.workerPool.toFinset.card :=
        (List.toFinset_card_of_nodup hnodup).symm
      _ ≤ (Finset.range n).card := by
        apply Finset.card_le_card
        intro x hx
        rw [List.mem_toFinset] at hx
        rw [Finset.mem_range]
        exact hmem' x hx
      _ = n := Finset.card_range n
  · intro hstop w
    have hobs : s.stopChannel.observed = false := by
      cases hob : s.stopChannel.observed with
      | false => rfl
      | true => rw [hor hob] at hstop; cases hstop
    constructor
    · intro hwin
      have hwpc : w ∈ poolClaim s := List.mem_append_left _ hwin
      have hwlt : w < s.workers.length := by
        rw [hlen]
        exact hmem w hwpc
      cases hw : s.workers[w]? with
      | none =>
        rw [List.getElem?_eq_none_iff] at hw
        omega
      | some ws =>
        have hcnt1 : (poolClaim s).count w = 1 := by
          have hpos : 0 < (poolClaim s).count w := List.count_pos_iff.2 hwpc
          have h0 := hcnt w
          omega
        rcases (hph w ws hw).2 hcnt1 with hphase | hphase
        · refine ⟨ws, rfl, hphase, ?_⟩
          have hp1 : 0 < s.workerPool.count w := List.count_pos_iff.2 hwin
          have hsum : (poolClaim s).count w =
              s.workerPool.count w + (s.claimed.map Prod.fst).count w := by
            rw [poolClaim, List.count_append]
          intro habs
          have hc1 := List.count_pos_iff.2 habs
          omega
        · exfalso
          have hob2 := hwsr ws (mem_of_getElemQ hw) (Or.inr hphase)
          rw [hob2] at hobs
          cases hobs
    · rintro ⟨ws, hw, hphase, hnotc⟩
      have hcnt1 : (poolClaim s).count w = 1 := (hph w ws hw).1 hphase
      have hclc : (s.claimed.map Prod.fst).count w = 0 := by
        rw [List.count_eq_zero]
        exact hnotc
      have hp1 : 0 < s.workerPool.count w := by
        rw [poolClaim, List.count_append, hclc] at hcnt1
        omega
      exact List.count_pos_iff.1 hp1

/-- C7 counterexample: start a single-worker pool, let the worker
register, then stop it; the worker observes the stop and terminates while
its inbox entry is still in the idle registry — an entry is present
although its worker is stopped, neither idle nor willing to accept. -/
theorem c7_counterexample :
    Reach exInit7 exBad7 ∧
    exBad7.workerPool = [0] ∧
    exBad7.workers[0]? = some exWorkerBad7 ∧
    exWorkerBad7.phase = WPhase.stopped :=
  ⟨reach_of_runActs
      [Act.run, Act.registerIdle 0, Act.callStop, Act.observeStop, Act.teardownStep,
        Act.workerObserveStop 0, Act.teardownStep]
      exInit7 exBad7 (by decide),
    by decide, by decide, by decide⟩

theorem c7_witness :
    exIdle7.workerPool.length ≤ 1 ∧ (0 : Nat) ∈ exIdle7.workerPool := by
  have h := @c7_registry_bounded Nat Unit 1 none [] [] exIdle7
    (reach_of_runActs [Act.run, Act.registerIdle 0] exInit7 exIdle7 (by decide))
  refine ⟨h.1, ?_⟩
  exact (h.2.2.2 (by decide) 0).mpr ⟨exWorkerIdle7, by decide, by decide, by decide⟩

end Blacksmith
